import Mathlib

set_option linter.unusedSectionVars false
set_option maxHeartbeats 2000000

/-!
Verification of the open-addressing hash table in
`src/datastructure/hashtable.rs`.

The Rust code is shallowly embedded: `Vec<HashCell<Key, Value>>` becomes a
`List (HashCell Key Value)`, `usize` arithmetic becomes `Nat` arithmetic with
an explicit `% 2 ^ 64` wherever the Rust code wraps, and the two loops of the
source (the bounded `for` loop of `get_index` and the unbounded `while` loop
of `insert`) become fuel-indexed recursions, with fuel `cells.len()` — the
bound the source itself uses for the `for` loop, and a bound we prove
sufficient for the `while` loop in every reachable state.
-/

namespace HashTableRs

/-- Wrap modulus of the 64-bit `usize` accumulator used by the string hash. -/
def wrapW : Nat := 2 ^ 64

/-- The `Hashable` trait: `fn hash(&self) -> usize`. -/
class Hashable (α : Type) where
  hash : α → Nat

open Hashable (hash)

/-- UTF-8 encoding of one character, as the list of its byte values.
Models what Rust's `str::bytes` yields for this character. -/
def charBytes (c : Char) : List Nat :=
  let n := c.toNat
  if n < 0x80 then [n]
  else if n < 0x800 then [0xC0 + n / 0x40, 0x80 + n % 0x40]
  else if n < 0x10000 then
    [0xE0 + n / 0x1000, 0x80 + n / 0x40 % 0x40, 0x80 + n % 0x40]
  else
    [0xF0 + n / 0x40000, 0x80 + n / 0x1000 % 0x40, 0x80 + n / 0x40 % 0x40,
      0x80 + n % 0x40]

/-- The UTF-8 byte sequence of a string: Rust's `self.bytes()`. -/
def strBytes (s : String) : List Nat := (s.data.map charBytes).flatten

/-- One step of the string hash loop:
`result = ((result << 5).wrapping_add(result)).wrapping_add(c)`,
with every `usize` operation wrapping at `2 ^ 64`. -/
def hashStringStep (r b : Nat) : Nat :=
  (((r <<< 5) % wrapW + r) % wrapW + b) % wrapW

/-- Rust's `impl Hashable for String`: the djb2 loop starting from 5381. -/
def stringHash (s : String) : Nat := (strBytes s).foldl hashStringStep 5381

instance : Hashable String := ⟨stringHash⟩

/-- Rust's `impl Hashable for usize`: `hash` is the identity.  `usize` values are
embedded as `Nat`. -/
instance : Hashable Nat := ⟨fun n => n⟩

/-- One step of the hash loop as the specification words it:
`accumulator = accumulator * 33 + b`, wrapping at the accumulator's width. -/
def djb2SpecStep (r b : Nat) : Nat := (r * 33 + b) % wrapW

/-- The djb2 variant as the specification words it (seed 5381, ×33 + byte,
wrapping).  Compared against `stringHash`, which follows the source's
shift-and-add formulation. -/
def djb2Spec (bs : List Nat) : Nat := bs.foldl djb2SpecStep 5381

/-- The cell record: `struct HashCell<Key, Value>` with key, value and a taken flag. -/
structure HashCell (Key Value : Type) where
  key : Key
  value : Value
  taken : Bool
deriving DecidableEq

/-- Rust's derived `Default` for `HashCell`: default key, default value,
`taken = false`. -/
instance [Inhabited K] [Inhabited V] : Inhabited (HashCell K V) :=
  ⟨⟨default, default, false⟩⟩

/-- The table record: `struct HashTable<Key, Value>` with cells and taken_count. -/
structure HashTable (Key Value : Type) where
  cells : List (HashCell Key Value)
  taken_count : Nat
deriving DecidableEq

variable {K V : Type} [DecidableEq K] [Hashable K] [Inhabited K] [Inhabited V]

/-- Indexing `self.cells[i]`.  Every index the source ever uses is reduced
`% self.cells.len()`, so the default is never read on a nonempty table. -/
def cellAt (cells : List (HashCell K V)) (i : Nat) : HashCell K V :=
  cells.getD i default

/-- A table with `n` default (untaken) cells and `taken_count = 0`:
`vec![HashCell::default(); n]`. -/
def newTable (n : Nat) : HashTable K V :=
  { cells := List.replicate n default, taken_count := 0 }

/-- Rust's `HashTable::new()` with `INITIAL_CAPACITY = 11`. -/
def HashTable.new : HashTable K V := newTable 11

/-- The probe loop of `get_index`: `for _ in 0..self.cells.len()`, breaking
at the first untaken cell or the first key match, otherwise stepping to
`(index + 1) % self.cells.len()`.  The fuel is the loop's own iteration
bound; when it runs out the current index is returned, exactly as the
source's `for` loop falls through. -/
def probe (cells : List (HashCell K V)) (key : K) : Nat → Nat → Nat
  | index, 0 => index
  | index, fuel + 1 =>
    if (cellAt cells index).taken = false then index
    else if (cellAt cells index).key = key then index
    else probe cells key ((index + 1) % cells.length) fuel

/-- Instrumentation of the same loop: `true` iff it breaks (at an untaken
cell or a key match) before the fuel runs out, `false` iff the defensive
fall-through after `cells.len()` iterations is executed. -/
def probeStops (cells : List (HashCell K V)) (key : K) : Nat → Nat → Bool
  | _, 0 => false
  | index, fuel + 1 =>
    if (cellAt cells index).taken = false then true
    else if (cellAt cells index).key = key then true
    else probeStops cells key ((index + 1) % cells.length) fuel

/-- Rust's `HashTable::get_index`: probe from `hash(key) % len` for at most `len`
steps, then re-check the final index for a live key match. -/
def HashTable.get_index (t : HashTable K V) (key : K) : Option Nat :=
  let index := probe t.cells key (hash key % t.cells.length) t.cells.length
  if (cellAt t.cells index).taken = true ∧ (cellAt t.cells index).key = key then
    some index
  else none

/-- Rust's `HashTable::get`: the value at the found index, if any. -/
def HashTable.get (t : HashTable K V) (key : K) : Option V :=
  match t.get_index key with
  | some index => some (cellAt t.cells index).value
  | none => none

/-- Writing a value `w` through the `&mut Value` handle returned by
`HashTable::get_mut`: the handle points at `cells[get_index(key)].value`,
so the write replaces exactly that value field (and nothing at all when
`get_mut` returned `None`). -/
def HashTable.writeThrough (t : HashTable K V) (key : K) (w : V) : HashTable K V :=
  match t.get_index key with
  | some index =>
    { t with cells := t.cells.set index { cellAt t.cells index with value := w } }
  | none => t

/-- The unbounded `while self.cells[index].taken` loop of `insert`, searching
for an untaken cell, embedded with fuel; `none` models the loop failing to
stop within `fuel` steps. -/
def findUntaken (cells : List (HashCell K V)) : Nat → Nat → Option Nat
  | _, 0 => none
  | index, fuel + 1 =>
    if (cellAt cells index).taken = true then
      findUntaken cells ((index + 1) % cells.length) fuel
    else some index

/-- The re-insertion pass of `HashTable::extend`: fold the old cells, in
index order, into a freshly allocated table of `2 * len + 1` default cells,
inserting every taken cell with the given insert routine. -/
def extendWith (ins : HashTable K V → K → V → HashTable K V) (t : HashTable K V) :
    HashTable K V :=
  t.cells.foldl
    (fun acc cell => if cell.taken = true then ins acc cell.key cell.value else acc)
    (newTable (t.cells.length * 2 + 1))

/-- One layer of `HashTable::insert`, parameterized by the growth routine
`grow` used when `taken_count >= cells.len()`.  The overwrite branch is the
source's `if let Some(old_value) = self.get_mut(&key) { *old_value = new_value }`;
the fresh branch grows first if needed and then scans for an untaken cell
from `hash(key) % cells.len()`. -/
def insertStep (grow : HashTable K V → HashTable K V) (t : HashTable K V)
    (key : K) (newValue : V) : HashTable K V :=
  match t.get_index key with
  | some index =>
    { t with cells := t.cells.set index { cellAt t.cells index with value := newValue } }
  | none =>
    let t1 := if t.cells.length ≤ t.taken_count then grow t else t
    match findUntaken t1.cells (hash key % t1.cells.length) t1.cells.length with
    | some index =>
      { cells := t1.cells.set index { key := key, value := newValue, taken := true },
        taken_count := t1.taken_count + 1 }
    | none => t1

/-- Rust's `HashTable::insert`, with `gas` bounding the nesting depth of growth.
The source's `extend` re-inserts into a strictly larger fresh table, so the
nested growth branch can never fire; `gas` makes the mutual recursion of
`insert` and `extend` a structural recursion on the depth. -/
def insertF (gas : Nat) : HashTable K V → K → V → HashTable K V :=
  Nat.rec (insertStep (fun t => t)) (fun _ ih => insertStep (fun t => extendWith ih t)) gas

/-- Rust's `HashTable::extend`: allocate `2 * len + 1` default cells and re-insert
every taken cell of the old table in index order (with one less unit of
gas for any nested growth). -/
def extendF (gas : Nat) (t : HashTable K V) : HashTable K V :=
  match gas with
  | 0 => t
  | g + 1 => extendWith (insertF g) t

/-- Rust's `HashTable::insert` as called by users; one unit of gas suffices since
growth never nests. -/
def HashTable.insert (t : HashTable K V) (key : K) (v : V) : HashTable K V :=
  insertF 1 t key v

/-- Rust's `HashTable::extend` as called from `insert`. -/
def HashTable.extend (t : HashTable K V) : HashTable K V := extendF 1 t

/-- Whether an `insert` of `key` into `t` would trigger a growth event:
the key is absent and the table is at capacity. -/
def growsOn (t : HashTable K V) (key : K) : Bool :=
  (t.get_index key).isNone && decide (t.cells.length ≤ t.taken_count)

/-- Run a sequence of inserts, left to right. -/
def runInserts (t : HashTable K V) (l : List (K × V)) : HashTable K V :=
  l.foldl (fun acc p => acc.insert p.1 p.2) t

/-- Number of growth events triggered while running a sequence of inserts. -/
def growthCount (t : HashTable K V) (l : List (K × V)) : Nat :=
  (l.foldl
    (fun acc p =>
      (acc.1.insert p.1 p.2, acc.2 + if growsOn acc.1 p.1 then 1 else 0))
    (t, 0)).2

/-- The condition on which the `get_index` loop breaks at index `i`. -/
def stopAt (cells : List (HashCell K V)) (key : K) (i : Nat) : Prop :=
  (cellAt cells i).taken = false ∨ (cellAt cells i).key = key

/-- The data-model invariant (spec §3): positive capacity, `taken_count`
agrees with the number of taken cells, taken keys are pairwise distinct, and
every taken cell is reachable from its key's start index by probing through
taken cells only, within `capacity` steps. -/
structure Inv (t : HashTable K V) : Prop where
  pos : 0 < t.cells.length
  count : t.taken_count = t.cells.countP (fun c => c.taken)
  distinct : ∀ i j, i < t.cells.length → j < t.cells.length →
    (cellAt t.cells i).taken = true → (cellAt t.cells j).taken = true →
    (cellAt t.cells i).key = (cellAt t.cells j).key → i = j
  path : ∀ i, i < t.cells.length → (cellAt t.cells i).taken = true →
    ∃ j, j < t.cells.length ∧
      (hash (cellAt t.cells i).key % t.cells.length + j) % t.cells.length = i ∧
      ∀ j', j' < j →
        (cellAt t.cells ((hash (cellAt t.cells i).key % t.cells.length + j') % t.cells.length)).taken
          = true

/-- The table holds `key` in some live cell. -/
def hasKey (t : HashTable K V) (key : K) : Prop :=
  ∃ i, i < t.cells.length ∧ (cellAt t.cells i).taken = true ∧
    (cellAt t.cells i).key = key

/-- The table maps `key` to `v` in some live cell. -/
def contains (t : HashTable K V) (key : K) (v : V) : Prop :=
  ∃ i, i < t.cells.length ∧ (cellAt t.cells i).taken = true ∧
    (cellAt t.cells i).key = key ∧ (cellAt t.cells i).value = v

/-- States reachable from `HashTable::new()` through the public operations
(`get` and a read-only `get_mut` do not change the state; a write through the
handle returned by `get_mut` is `writeThrough`). -/
inductive Reachable : HashTable K V → Prop where
  | new : Reachable HashTable.new
  | insert {t : HashTable K V} (key : K) (v : V) :
      Reachable t → Reachable (t.insert key v)
  | write {t : HashTable K V} (key : K) (w : V) :
      Reachable t → Reachable (t.writeThrough key w)

/-- A single public mutating operation: an `insert` call, or a write through
the handle returned by `get_mut`. -/
inductive Op (K V : Type) where
  | ins (key : K) (v : V) : Op K V
  | wr (key : K) (w : V) : Op K V

def applyOp (t : HashTable K V) : Op K V → HashTable K V
  | Op.ins k v => t.insert k v
  | Op.wr k w => t.writeThrough k w

/-- Run a sequence of mutating operations, left to right. -/
def runOps (t : HashTable K V) (l : List (Op K V)) : HashTable K V :=
  l.foldl applyOp t

/-- Whether an operation is an insert of the given key. -/
def Op.insKey {K V : Type} [DecidableEq K] : Op K V → K → Bool
  | Op.ins k' _, k => decide (k' = k)
  | Op.wr _ _, _ => false

/-- The one-character string used in the spec's hash and `get_mut` test
vectors. -/
def keyA : String := "a"

/-- The key-value pairs `(0, 0), (1, 1), ..., (n-1, n-1)`. -/
def natPairs (n : Nat) : List (Nat × Nat) :=
  (List.range n).map (fun i => (i, i))

end HashTableRs

namespace HashTableRs

variable {K V : Type} [DecidableEq K] [Hashable K] [Inhabited K] [Inhabited V]

theorem cellAt_of_lt {cells : List (HashCell K V)} {i : Nat} (h : i < cells.length) :
    cellAt cells i = cells[i] := by
  simp [cellAt, List.getD_eq_getElem?_getD, List.getElem?_eq_getElem h]

theorem cellAt_of_le {cells : List (HashCell K V)} {i : Nat} (h : cells.length ≤ i) :
    cellAt cells i = default := by
  simp [cellAt, List.getD_eq_getElem?_getD, List.getElem?_eq_none h]

theorem cellAt_cons_zero {a : HashCell K V} {tl : List (HashCell K V)} :
    cellAt (a :: tl) 0 = a := by
  simp [cellAt]

theorem cellAt_cons_succ {a : HashCell K V} {tl : List (HashCell K V)} {i : Nat} :
    cellAt (a :: tl) (i + 1) = cellAt tl i := by
  simp [cellAt]

theorem cellAt_set_self {cells : List (HashCell K V)} {i : Nat}
    (h : i < cells.length) (c : HashCell K V) :
    cellAt (cells.set i c) i = c := by
  rw [cellAt_of_lt (by simpa using h)]
  simp

theorem cellAt_set_ne {cells : List (HashCell K V)} {i j : Nat}
    (h : j ≠ i) (c : HashCell K V) :
    cellAt (cells.set i c) j = cellAt cells j := by
  simp [cellAt, List.getD_eq_getElem?_getD, List.getElem?_set_ne (Ne.symm h)]

theorem default_not_taken : (default : HashCell K V).taken = false := rfl

/-- Two probe offsets below the capacity that land on the same index are
equal. -/
theorem probeIndex_inj {cap s j j' : Nat} (hj : j < cap) (hj' : j' < cap)
    (h : (s + j) % cap = (s + j') % cap) : j = j' := by
  have h1 : s + j ≡ s + j' [MOD cap] := h
  have h2 : j ≡ j' [MOD cap] := Nat.ModEq.add_left_cancel' s h1
  have h3 : j % cap = j' % cap := h2
  rwa [Nat.mod_eq_of_lt hj, Nat.mod_eq_of_lt hj'] at h3

/-- Some probe offset below the capacity lands on any given index. -/
theorem shift_to_index {cap s0 u : Nat} (hs : s0 < cap) (hu : u < cap) :
    ∃ j, j < cap ∧ (s0 + j) % cap = u := by
  by_cases h : s0 ≤ u
  · refine ⟨u - s0, by omega, ?_⟩
    rw [Nat.add_sub_cancel' h, Nat.mod_eq_of_lt hu]
  · refine ⟨u + cap - s0, by omega, ?_⟩
    have he : s0 + (u + cap - s0) = u + cap := by omega
    rw [he, Nat.add_mod_right, Nat.mod_eq_of_lt hu]

/-- The probe loop of `get_index` stops at the first break index on its
path. -/
theorem probe_reaches {cells : List (HashCell K V)} {key : K} :
    ∀ (j fuel s0 : Nat), s0 < cells.length → j < fuel →
      (∀ j', j' < j → ¬ stopAt cells key ((s0 + j') % cells.length)) →
      stopAt cells key ((s0 + j) % cells.length) →
      probe cells key s0 fuel = (s0 + j) % cells.length := by
  intro j
  induction j with
  | zero =>
    intro fuel s0 hs0 hfuel _ hstop
    match fuel, hfuel with
    | f + 1, _ =>
      simp only [Nat.add_zero, Nat.mod_eq_of_lt hs0] at hstop ⊢
      unfold probe
      rcases hstop with h | h
      · rw [if_pos h]
      · by_cases ht : (cellAt cells s0).taken = false
        · rw [if_pos ht]
        · rw [if_neg ht, if_pos h]
  | succ jj ih =>
    intro fuel s0 hs0 hfuel hpre hstop
    match fuel, hfuel with
    | f + 1, hfuel =>
      have h0 : ¬ stopAt cells key ((s0 + 0) % cells.length) :=
        hpre 0 (Nat.succ_pos jj)
      rw [Nat.add_zero, Nat.mod_eq_of_lt hs0] at h0
      have ht : ¬ (cellAt cells s0).taken = false := fun h => h0 (Or.inl h)
      have hk : ¬ (cellAt cells s0).key = key := fun h => h0 (Or.inr h)
      have hlen : 0 < cells.length := lt_of_le_of_lt (Nat.zero_le _) hs0
      unfold probe
      rw [if_neg ht, if_neg hk]
      have hs1 : (s0 + 1) % cells.length < cells.length := Nat.mod_lt _ hlen
      have hshift : ∀ m, ((s0 + 1) % cells.length + m) % cells.length =
          (s0 + (m + 1)) % cells.length := by
        intro m
        rw [Nat.mod_add_mod]
        congr 1
        omega
      have := ih f ((s0 + 1) % cells.length) hs1 (Nat.lt_of_succ_lt_succ hfuel)
        (fun j' hj' => by rw [hshift j']; exact hpre (j' + 1) (by omega))
        (by rw [hshift jj]; exact hstop)
      rw [this, hshift jj]

/-- If some break index is within reach of the fuel, the loop breaks:
`probeStops` is `true`. -/
theorem probeStops_of_exists {cells : List (HashCell K V)} {key : K} :
    ∀ (fuel s0 : Nat), s0 < cells.length →
      (∃ j, j < fuel ∧ stopAt cells key ((s0 + j) % cells.length)) →
      probeStops cells key s0 fuel = true := by
  intro fuel
  induction fuel with
  | zero => intro s0 _ ⟨j, hj, _⟩; omega
  | succ f ih =>
    intro s0 hs0 ⟨j, hj, hstop⟩
    unfold probeStops
    by_cases ht : (cellAt cells s0).taken = false
    · rw [if_pos ht]
    · rw [if_neg ht]
      by_cases hk : (cellAt cells s0).key = key
      · rw [if_pos hk]
      · rw [if_neg hk]
        have hlen : 0 < cells.length := lt_of_le_of_lt (Nat.zero_le _) hs0
        have hj0 : j ≠ 0 := by
          intro h
          rw [h, Nat.add_zero, Nat.mod_eq_of_lt hs0] at hstop
          rcases hstop with h' | h' <;> [exact ht h'; exact hk h']
        match j, hj0 with
        | jj + 1, _ =>
          refine ih ((s0 + 1) % cells.length) (Nat.mod_lt _ hlen) ⟨jj, by omega, ?_⟩
          rw [Nat.mod_add_mod]
          have : s0 + 1 + jj = s0 + (jj + 1) := by omega
          rwa [this]

end HashTableRs

namespace HashTableRs

variable {K V : Type} [DecidableEq K] [Hashable K] [Inhabited K] [Inhabited V]

open Hashable (hash)

theorem get_index_eq (t : HashTable K V) (key : K) :
    t.get_index key =
      if (cellAt t.cells (probe t.cells key (hash key % t.cells.length) t.cells.length)).taken = true ∧
          (cellAt t.cells (probe t.cells key (hash key % t.cells.length) t.cells.length)).key = key then
        some (probe t.cells key (hash key % t.cells.length) t.cells.length)
      else none := rfl

/-- Whatever `get_index` returns points at a live cell holding the sought
key, inside the array. -/
theorem get_index_sound {t : HashTable K V} {key : K} {i : Nat}
    (h : t.get_index key = some i) :
    i < t.cells.length ∧ (cellAt t.cells i).taken = true ∧
      (cellAt t.cells i).key = key := by
  rw [get_index_eq] at h
  split at h
  case isTrue hc =>
    cases h
    refine ⟨?_, hc.1, hc.2⟩
    by_contra hge
    push_neg at hge
    obtain ⟨h1, _⟩ := hc
    rw [cellAt_of_le hge, default_not_taken] at h1
    cases h1
  case isFalse => cases h

/-- When no live cell holds the key, `get_index` reports absence (no
invariant needed: this is the soundness of the final re-check). -/
theorem get_index_none {t : HashTable K V} {key : K}
    (h : ∀ i, i < t.cells.length → (cellAt t.cells i).taken = true →
      (cellAt t.cells i).key ≠ key) :
    t.get_index key = none := by
  cases hg : t.get_index key with
  | none => rfl
  | some i =>
    obtain ⟨h1, h2, h3⟩ := get_index_sound hg
    exact absurd h3 (h i h1 h2)

/-- The bound `taken_count ≤ capacity` is a consequence of the counting part of the
invariant. -/
theorem Inv.le_capacity {t : HashTable K V} (hInv : Inv t) :
    t.taken_count ≤ t.cells.length := by
  rw [hInv.count]; exact List.countP_le_length _

/-- Under the invariant, `get_index` finds every live key. -/
theorem get_index_complete {t : HashTable K V} (hInv : Inv t) {key : K} {i : Nat}
    (hi : i < t.cells.length) (ht : (cellAt t.cells i).taken = true)
    (hk : (cellAt t.cells i).key = key) :
    t.get_index key = some i := by
  obtain ⟨j, hj, hreach, hpath⟩ := hInv.path i hi ht
  rw [hk] at hreach hpath
  have hs : hash key % t.cells.length < t.cells.length := Nat.mod_lt _ hInv.pos
  have hpr : probe t.cells key (hash key % t.cells.length) t.cells.length =
      (hash key % t.cells.length + j) % t.cells.length := by
    apply probe_reaches j t.cells.length _ hs hj
    · intro j' hj' hstop
      rcases hstop with hun | hmatch
      · have := hpath j' hj'
        rw [this] at hun
        cases hun
      · have hti' : (cellAt t.cells ((hash key % t.cells.length + j') % t.cells.length)).taken
            = true := hpath j' hj'
        have hlt' : (hash key % t.cells.length + j') % t.cells.length < t.cells.length :=
          Nat.mod_lt _ hInv.pos
        have heqi : (hash key % t.cells.length + j') % t.cells.length = i :=
          hInv.distinct _ i hlt' hi hti' ht (by rw [hmatch, hk])
        have heq : (hash key % t.cells.length + j') % t.cells.length =
            (hash key % t.cells.length + j) % t.cells.length := by rw [hreach]; exact heqi
        have : j' = j := probeIndex_inj (lt_trans hj' hj) hj heq
        omega
    · rw [hreach]; exact Or.inr hk
  rw [get_index_eq, hpr, hreach, if_pos ⟨ht, hk⟩]

/-- What a successful untaken-cell scan means: the found index lies on the
probe path, is untaken, and everything strictly before it on the path is
taken. -/
theorem findUntaken_sound {cells : List (HashCell K V)} :
    ∀ (fuel s0 i : Nat), s0 < cells.length → findUntaken cells s0 fuel = some i →
      ∃ j, j < fuel ∧ i = (s0 + j) % cells.length ∧
        (cellAt cells i).taken = false ∧
        ∀ j', j' < j → (cellAt cells ((s0 + j') % cells.length)).taken = true := by
  intro fuel
  induction fuel with
  | zero => intro s0 i _ h; simp [findUntaken] at h
  | succ f ih =>
    intro s0 i hs0 h
    unfold findUntaken at h
    by_cases ht : (cellAt cells s0).taken = true
    · rw [if_pos ht] at h
      have hlen : 0 < cells.length := lt_of_le_of_lt (Nat.zero_le _) hs0
      obtain ⟨j, hj, hi, hfree, hpre⟩ := ih ((s0 + 1) % cells.length) i (Nat.mod_lt _ hlen) h
      refine ⟨j + 1, by omega, ?_, hfree, ?_⟩
      · rw [hi, Nat.mod_add_mod]
        congr 1
        omega
      · intro j' hj'
        match j' with
        | 0 => simpa [Nat.mod_eq_of_lt hs0] using ht
        | jj + 1 =>
          have hstep := hpre jj (by omega)
          rwa [Nat.mod_add_mod, (by omega : s0 + 1 + jj = s0 + (jj + 1))] at hstep
    · rw [if_neg ht] at h
      cases h
      refine ⟨0, by omega, by rw [Nat.add_zero, Nat.mod_eq_of_lt hs0], ?_, ?_⟩
      · simpa using ht
      · intro j' hj'
        omega

/-- The scan succeeds as soon as some untaken cell is within reach of the
fuel. -/
theorem findUntaken_isSome {cells : List (HashCell K V)} :
    ∀ (fuel s0 : Nat), s0 < cells.length →
      (∃ j, j < fuel ∧ (cellAt cells ((s0 + j) % cells.length)).taken = false) →
      (findUntaken cells s0 fuel).isSome = true := by
  intro fuel
  induction fuel with
  | zero => intro s0 _ ⟨j, hj, _⟩; omega
  | succ f ih =>
    intro s0 hs0 ⟨j, hj, hfree⟩
    unfold findUntaken
    by_cases ht : (cellAt cells s0).taken = true
    · rw [if_pos ht]
      have hlen : 0 < cells.length := lt_of_le_of_lt (Nat.zero_le _) hs0
      have hj0 : j ≠ 0 := by
        intro h
        rw [h, Nat.add_zero, Nat.mod_eq_of_lt hs0] at hfree
        simp [ht] at hfree
      match j, hj0 with
      | jj + 1, _ =>
        apply ih ((s0 + 1) % cells.length) (Nat.mod_lt _ hlen)
        refine ⟨jj, by omega, ?_⟩
        rwa [Nat.mod_add_mod, (by omega : s0 + 1 + jj = s0 + (jj + 1))]
    · rw [if_neg ht]
      rfl

/-- Fewer taken cells than cells at all: some cell is untaken. -/
theorem exists_untaken {cells : List (HashCell K V)}
    (h : cells.countP (fun c => c.taken) < cells.length) :
    ∃ u, u < cells.length ∧ (cellAt cells u).taken = false := by
  by_contra hcon
  push_neg at hcon
  have hall : cells.countP (fun c => c.taken) = cells.length := by
    rw [List.countP_eq_length]
    intro a ha
    obtain ⟨i, hi, rfl⟩ := List.mem_iff_getElem.mp ha
    have hne := hcon i hi
    rw [cellAt_of_lt hi] at hne
    simpa using hne
  omega

theorem countP_set_same (p : HashCell K V → Bool) :
    ∀ (l : List (HashCell K V)) (i : Nat) (c : HashCell K V), i < l.length →
      p (cellAt l i) = p c → (l.set i c).countP p = l.countP p := by
  intro l
  induction l with
  | nil => intro i c h _; simp at h
  | cons a tl ih =>
    intro i c hi hp
    match i with
    | 0 =>
      rw [cellAt_cons_zero] at hp
      simp [List.set_cons_zero, List.countP_cons, hp]
    | n + 1 =>
      rw [cellAt_cons_succ] at hp
      simp only [List.set_cons_succ, List.countP_cons]
      rw [ih n c (by simpa using hi) hp]

theorem countP_set_incr (p : HashCell K V → Bool) :
    ∀ (l : List (HashCell K V)) (i : Nat) (c : HashCell K V), i < l.length →
      p (cellAt l i) = false → p c = true →
      (l.set i c).countP p = l.countP p + 1 := by
  intro l
  induction l with
  | nil => intro i c h _ _; simp at h
  | cons a tl ih =>
    intro i c hi hold hc
    match i with
    | 0 =>
      rw [cellAt_cons_zero] at hold
      simp [List.set_cons_zero, List.countP_cons, hold, hc]
    | n + 1 =>
      rw [cellAt_cons_succ] at hold
      simp only [List.set_cons_succ, List.countP_cons]
      rw [ih n c (by simpa using hi) hold hc]
      omega

end HashTableRs

namespace HashTableRs

variable {K V : Type} [DecidableEq K] [Hashable K] [Inhabited K] [Inhabited V]

open Hashable (hash)

theorem get_index_none_iff {t : HashTable K V} (hInv : Inv t) {key : K} :
    t.get_index key = none ↔ ¬ hasKey t key := by
  constructor
  · rintro h ⟨i, h1, h2, h3⟩
    rw [get_index_complete hInv h1 h2 h3] at h
    cases h
  · intro h
    apply get_index_none
    intro i h1 h2 h3
    exact h ⟨i, h1, h2, h3⟩

theorem get_eq_some_iff {t : HashTable K V} (hInv : Inv t) {key : K} {v : V} :
    t.get key = some v ↔ contains t key v := by
  constructor
  · intro h
    cases hg : t.get_index key with
    | none =>
      simp only [HashTable.get, hg] at h
      exact Option.noConfusion h
    | some i =>
      simp only [HashTable.get, hg, Option.some.injEq] at h
      obtain ⟨h1, h2, h3⟩ := get_index_sound hg
      exact ⟨i, h1, h2, h3, h⟩
  · rintro ⟨i, h1, h2, h3, h4⟩
    simp only [HashTable.get, get_index_complete hInv h1 h2 h3, h4]

theorem get_eq_none_iff {t : HashTable K V} (hInv : Inv t) {key : K} :
    t.get key = none ↔ ¬ hasKey t key := by
  rw [← get_index_none_iff hInv]
  constructor
  · intro h
    cases hg : t.get_index key with
    | none => rfl
    | some i =>
      simp only [HashTable.get, hg] at h
      exact Option.noConfusion h
  · intro h
    simp only [HashTable.get, h]

/-- Replacing the value of a cell (key and taken flag unchanged) preserves
the invariant. -/
theorem inv_setValue {t : HashTable K V} (hInv : Inv t) {i : Nat}
    (hi : i < t.cells.length) (w : V) :
    Inv { t with cells := t.cells.set i { cellAt t.cells i with value := w } } := by
  have hfield : ∀ j,
      (cellAt (t.cells.set i { cellAt t.cells i with value := w }) j).key
        = (cellAt t.cells j).key ∧
      (cellAt (t.cells.set i { cellAt t.cells i with value := w }) j).taken
        = (cellAt t.cells j).taken := by
    intro j
    by_cases hj : j = i
    · subst hj
      rw [cellAt_set_self hi]
      exact ⟨rfl, rfl⟩
    · rw [cellAt_set_ne hj]
      exact ⟨rfl, rfl⟩
  constructor
  · simpa using hInv.pos
  · rw [countP_set_same (fun c => c.taken) t.cells i
        { cellAt t.cells i with value := w } hi rfl]
    exact hInv.count
  · intro a b ha hb hta htb hk
    simp only [List.length_set] at ha hb
    rw [(hfield a).2] at hta
    rw [(hfield b).2] at htb
    rw [(hfield a).1, (hfield b).1] at hk
    exact hInv.distinct a b ha hb hta htb hk
  · intro a ha hta
    simp only [List.length_set] at ha
    rw [(hfield a).2] at hta
    obtain ⟨j, hj, hreach, hpath⟩ := hInv.path a ha hta
    refine ⟨j, by simpa using hj, ?_, ?_⟩
    · simp only [List.length_set]
      rw [(hfield a).1]
      exact hreach
    · intro j' hj'
      simp only [List.length_set]
      rw [(hfield a).1, (hfield _).2]
      exact hpath j' hj'

/-- Placing a fresh key at the first untaken cell on its probe path: the scan
succeeds and the new table satisfies the invariant. -/
theorem inv_fresh {t : HashTable K V} (hInv : Inv t) {key : K} (v : V)
    (hcap : t.taken_count < t.cells.length)
    (habs : ∀ i, i < t.cells.length → (cellAt t.cells i).taken = true →
      (cellAt t.cells i).key ≠ key) :
    ∃ i, findUntaken t.cells (hash key % t.cells.length) t.cells.length = some i ∧
      i < t.cells.length ∧ (cellAt t.cells i).taken = false ∧
      Inv { cells := t.cells.set i { key := key, value := v, taken := true },
            taken_count := t.taken_count + 1 } := by
  have hs : hash key % t.cells.length < t.cells.length := Nat.mod_lt _ hInv.pos
  have hcount : t.cells.countP (fun c => c.taken) < t.cells.length := by
    rw [← hInv.count]
    exact hcap
  obtain ⟨u, hu, hufree⟩ := exists_untaken hcount
  obtain ⟨ju, hju, hjueq⟩ := shift_to_index hs hu
  have hsome : (findUntaken t.cells (hash key % t.cells.length) t.cells.length).isSome = true :=
    findUntaken_isSome t.cells.length _ hs ⟨ju, hju, by rw [hjueq]; exact hufree⟩
  obtain ⟨i, hieq⟩ := Option.isSome_iff_exists.mp hsome
  obtain ⟨j0, hj0, hi0, hfree, hpre⟩ := findUntaken_sound t.cells.length _ i hs hieq
  have hilt : i < t.cells.length := by
    rw [hi0]
    exact Nat.mod_lt _ hInv.pos
  have hat : cellAt (t.cells.set i { key := key, value := v, taken := true }) i
      = { key := key, value := v, taken := true } := cellAt_set_self hilt _
  have hmono : ∀ b, (cellAt t.cells b).taken = true →
      (cellAt (t.cells.set i { key := key, value := v, taken := true }) b).taken = true := by
    intro b hb
    by_cases hbi : b = i
    · subst hbi
      rw [hat]
    · rw [cellAt_set_ne hbi]
      exact hb
  have hother : ∀ b, b ≠ i →
      cellAt (t.cells.set i { key := key, value := v, taken := true }) b = cellAt t.cells b :=
    fun b hb => cellAt_set_ne hb _
  refine ⟨i, hieq, hilt, hfree, ?_⟩
  constructor
  · simpa using hInv.pos
  · rw [countP_set_incr (fun c => c.taken) t.cells i
        { key := key, value := v, taken := true } hilt hfree rfl]
    rw [hInv.count]
  · intro a b ha hb hta htb hk
    simp only [List.length_set] at ha hb
    by_cases hai : a = i <;> by_cases hbi : b = i
    · rw [hai, hbi]
    · subst hai
      rw [hat] at hk
      rw [hother b hbi] at htb hk
      exact absurd hk.symm (habs b hb htb)
    · subst hbi
      rw [hat] at hk
      rw [hother a hai] at hta hk
      exact absurd hk (habs a ha hta)
    · rw [hother a hai] at hta hk
      rw [hother b hbi] at htb hk
      exact hInv.distinct a b ha hb hta htb hk
  · intro a ha hta
    simp only [List.length_set] at ha
    by_cases hai : a = i
    · subst hai
      refine ⟨j0, by simpa using hj0, ?_, ?_⟩
      · simp only [List.length_set]
        rw [hat, hi0]
      · intro j' hj'
        simp only [List.length_set]
        rw [hat]
        exact hmono _ (hpre j' hj')
    · rw [hother a hai] at hta
      obtain ⟨j, hj, hreach, hpath⟩ := hInv.path a ha hta
      refine ⟨j, by simpa using hj, ?_, ?_⟩
      · simp only [List.length_set]
        rw [hother a hai]
        exact hreach
      · intro j' hj'
        simp only [List.length_set]
        rw [hother a hai]
        exact hmono _ (hpath j' hj')

theorem insertF_eq (gas : Nat) :
    insertF (K := K) (V := V) gas = insertStep (fun t => extendF gas t) := by
  cases gas with
  | zero => rfl
  | succ g => rfl

theorem insertF_found {gas : Nat} {t : HashTable K V} {key : K} {i : Nat} (v : V)
    (h : t.get_index key = some i) :
    insertF gas t key v =
      { t with cells := t.cells.set i { cellAt t.cells i with value := v } } := by
  rw [insertF_eq]
  unfold insertStep
  rw [h]

theorem insertF_fresh_nogrow {gas : Nat} {t : HashTable K V} {key : K} (v : V)
    (h : t.get_index key = none) (hcap : t.taken_count < t.cells.length) :
    insertF gas t key v =
      match findUntaken t.cells (hash key % t.cells.length) t.cells.length with
      | some index =>
        { cells := t.cells.set index { key := key, value := v, taken := true },
          taken_count := t.taken_count + 1 }
      | none => t := by
  rw [insertF_eq]
  unfold insertStep
  rw [h, if_neg (by omega : ¬ t.cells.length ≤ t.taken_count)]

theorem insertF_fresh_grow {gas : Nat} {t : HashTable K V} {key : K} (v : V)
    (h : t.get_index key = none) (hcap : t.cells.length ≤ t.taken_count) :
    insertF gas t key v =
      match findUntaken (extendF gas t).cells
          (hash key % (extendF gas t).cells.length) (extendF gas t).cells.length with
      | some index =>
        { cells := (extendF gas t).cells.set index { key := key, value := v, taken := true },
          taken_count := (extendF gas t).taken_count + 1 }
      | none => extendF gas t := by
  rw [insertF_eq]
  unfold insertStep
  rw [h, if_pos hcap]

end HashTableRs

namespace HashTableRs

variable {K V : Type} [DecidableEq K] [Hashable K] [Inhabited K] [Inhabited V]

open Hashable (hash)

theorem hasKey_iff_exists {t : HashTable K V} {key : K} :
    hasKey t key ↔ ∃ v, contains t key v := by
  constructor
  · rintro ⟨i, h1, h2, h3⟩
    exact ⟨(cellAt t.cells i).value, i, h1, h2, h3, rfl⟩
  · rintro ⟨v, i, h1, h2, h3, _⟩
    exact ⟨i, h1, h2, h3⟩

/-- Content after overwriting the value of the cell found for `key`. -/
theorem contains_setValue {t : HashTable K V} (hInv : Inv t) {key : K} {i : Nat}
    (hfound : t.get_index key = some i) (v : V) :
    ∀ x y,
      contains { t with cells := t.cells.set i { cellAt t.cells i with value := v } } x y ↔
        ((x = key ∧ y = v) ∨ (x ≠ key ∧ contains t x y)) := by
  obtain ⟨hi, hti, hki⟩ := get_index_sound hfound
  intro x y
  constructor
  · rintro ⟨a, ha, hta, hka, hva⟩
    simp only [List.length_set] at ha
    by_cases hai : a = i
    · subst hai
      rw [cellAt_set_self hi] at hta hka hva
      left
      constructor
      · rw [← hka]
        exact hki
      · exact hva.symm
    · rw [cellAt_set_ne hai] at hta hka hva
      right
      refine ⟨?_, a, ha, hta, hka, hva⟩
      intro hxk
      subst hxk
      exact hai (hInv.distinct a i ha hi hta hti (by rw [hka, hki]))
  · rintro (⟨hx, hy⟩ | ⟨hx, a, ha, hta, hka, hva⟩)
    · subst hx
      subst hy
      refine ⟨i, by simpa using hi, ?_, ?_, ?_⟩
      · rw [cellAt_set_self hi]
        exact hti
      · rw [cellAt_set_self hi]
        exact hki
      · rw [cellAt_set_self hi]
    · have hai : a ≠ i := by
        intro h
        subst h
        exact hx (by rw [← hka, hki])
      refine ⟨a, by simpa using ha, ?_, ?_, ?_⟩
      · rw [cellAt_set_ne hai]
        exact hta
      · rw [cellAt_set_ne hai]
        exact hka
      · rw [cellAt_set_ne hai]
        exact hva

/-- Content after placing a fresh live cell at an untaken index. -/
theorem contains_fresh {t : HashTable K V} (key : K) {i : Nat} (v : V)
    (hi : i < t.cells.length) (hfree : (cellAt t.cells i).taken = false) :
    ∀ x y,
      contains { cells := t.cells.set i { key := key, value := v, taken := true },
                 taken_count := t.taken_count + 1 } x y ↔
        ((x = key ∧ y = v) ∨ contains t x y) := by
  intro x y
  constructor
  · rintro ⟨a, ha, hta, hka, hva⟩
    simp only [List.length_set] at ha
    by_cases hai : a = i
    · subst hai
      rw [cellAt_set_self hi] at hta hka hva
      exact Or.inl ⟨hka.symm, hva.symm⟩
    · rw [cellAt_set_ne hai] at hta hka hva
      exact Or.inr ⟨a, ha, hta, hka, hva⟩
  · rintro (⟨hx, hy⟩ | ⟨a, ha, hta, hka, hva⟩)
    · subst hx
      subst hy
      refine ⟨i, by simpa using hi, ?_, ?_, ?_⟩
      · rw [cellAt_set_self hi]
      · rw [cellAt_set_self hi]
      · rw [cellAt_set_self hi]
    · have hai : a ≠ i := by
        intro h
        subst h
        rw [hta] at hfree
        cases hfree
      refine ⟨a, by simpa using ha, ?_, ?_, ?_⟩
      · rw [cellAt_set_ne hai]
        exact hta
      · rw [cellAt_set_ne hai]
        exact hka
      · rw [cellAt_set_ne hai]
        exact hva

theorem cellAt_replicate {m i : Nat} (hi : i < m) :
    cellAt (List.replicate m (default : HashCell K V)) i = default := by
  rw [cellAt_of_lt (by simpa using hi)]
  simp

/-- A freshly allocated table satisfies the invariant. -/
theorem inv_newTable {m : Nat} (hm : 0 < m) : Inv (newTable m : HashTable K V) := by
  constructor
  · simpa [newTable] using hm
  · simp [newTable, List.countP_replicate, default_not_taken]
  · intro a b ha hb hta htb _
    simp only [newTable, List.length_replicate] at ha hta
    rw [cellAt_replicate ha, default_not_taken] at hta
    cases hta
  · intro a ha hta
    simp only [newTable, List.length_replicate] at ha hta
    rw [cellAt_replicate ha, default_not_taken] at hta
    cases hta

theorem not_hasKey_newTable {m : Nat} {key : K} : ¬ hasKey (newTable m : HashTable K V) key := by
  rintro ⟨i, hi, hti, _⟩
  simp only [newTable, List.length_replicate] at hi hti
  rw [cellAt_replicate hi, default_not_taken] at hti
  cases hti

end HashTableRs

namespace HashTableRs

variable {K V : Type} [DecidableEq K] [Hashable K] [Inhabited K] [Inhabited V]

open Hashable (hash)

theorem contains_iff_mem {t : HashTable K V} {x : K} {y : V} :
    contains t x y ↔ ∃ c, c ∈ t.cells ∧ c.taken = true ∧ c.key = x ∧ c.value = y := by
  constructor
  · rintro ⟨i, hi, h2, h3, h4⟩
    rw [cellAt_of_lt hi] at h2 h3 h4
    exact ⟨t.cells[i], List.getElem_mem hi, h2, h3, h4⟩
  · rintro ⟨c, hmem, h2, h3, h4⟩
    obtain ⟨i, hi, rfl⟩ := List.mem_iff_getElem.mp hmem
    refine ⟨i, hi, ?_, ?_, ?_⟩ <;> rw [cellAt_of_lt hi] <;> assumption

/-- Re-inserting a list of cells with pairwise-distinct live keys, all absent
from the accumulator, into a table with enough room: the invariant is kept,
capacity is unchanged, the cell count grows by the number of live cells, and
the content is the union. -/
theorem foldl_reinsert {g : Nat} {C : Nat} :
    ∀ (L : List (HashCell K V)) (acc : HashTable K V),
      Inv acc → acc.cells.length = C →
      acc.taken_count + L.countP (fun c => c.taken) < C →
      (∀ c, c ∈ L → c.taken = true → ¬ hasKey acc c.key) →
      L.Pairwise (fun a b => a.taken = true → b.taken = true → a.key ≠ b.key) →
      Inv (L.foldl
        (fun a cell => if cell.taken = true then insertF g a cell.key cell.value else a) acc) ∧
      (L.foldl
        (fun a cell => if cell.taken = true then insertF g a cell.key cell.value else a)
          acc).cells.length = C ∧
      (L.foldl
        (fun a cell => if cell.taken = true then insertF g a cell.key cell.value else a)
          acc).taken_count = acc.taken_count + L.countP (fun c => c.taken) ∧
      ∀ x y, contains (L.foldl
        (fun a cell => if cell.taken = true then insertF g a cell.key cell.value else a) acc) x y ↔
          (contains acc x y ∨ ∃ c, c ∈ L ∧ c.taken = true ∧ c.key = x ∧ c.value = y) := by
  intro L
  induction L with
  | nil =>
    intro acc hInv hlen _ _ _
    refine ⟨hInv, hlen, by simp, ?_⟩
    intro x y
    simp
  | cons c rest ih =>
    intro acc hInv hlen hbound habs hpair
    rw [List.pairwise_cons] at hpair
    by_cases hc : c.taken = true
    · have hcnt : (c :: rest).countP (fun d => d.taken) = rest.countP (fun d => d.taken) + 1 := by
        simp [List.countP_cons, hc]
      have habs0 : ¬ hasKey acc c.key := habs c (List.mem_cons_self c rest) hc
      have hgidx : acc.get_index c.key = none := (get_index_none_iff hInv).mpr habs0
      have hcap : acc.taken_count < acc.cells.length := by
        rw [hcnt] at hbound
        omega
      have habs' : ∀ i, i < acc.cells.length → (cellAt acc.cells i).taken = true →
          (cellAt acc.cells i).key ≠ c.key := fun i h1 h2 h3 => habs0 ⟨i, h1, h2, h3⟩
      obtain ⟨i, hfound, hilt, hfree, hInv'⟩ := inv_fresh hInv c.value hcap habs'
      have hstep : insertF g acc c.key c.value = ({ cells := acc.cells.set i { key := c.key, value := c.value, taken := true }, taken_count := acc.taken_count + 1 } : HashTable K V) := by
        rw [insertF_fresh_nogrow c.value hgidx hcap, hfound]
      have hcont' := contains_fresh (t := acc) c.key c.value hilt hfree
      have hfold : (c :: rest).foldl (fun a cell => if cell.taken = true then insertF g a cell.key cell.value else a) acc = rest.foldl (fun a cell => if cell.taken = true then insertF g a cell.key cell.value else a) ({ cells := acc.cells.set i { key := c.key, value := c.value, taken := true }, taken_count := acc.taken_count + 1 } : HashTable K V) := by
        simp only [List.foldl_cons]
        rw [if_pos hc, hstep]
      have hlen' : ({ cells := acc.cells.set i { key := c.key, value := c.value, taken := true }, taken_count := acc.taken_count + 1 } : HashTable K V).cells.length = C := by
        simpa using hlen
      have hbound' : ({ cells := acc.cells.set i { key := c.key, value := c.value, taken := true }, taken_count := acc.taken_count + 1 } : HashTable K V).taken_count + rest.countP (fun d => d.taken) < C := by
        rw [hcnt] at hbound
        simp only []
        omega
      have habs'' : ∀ c', c' ∈ rest → c'.taken = true → ¬ hasKey ({ cells := acc.cells.set i { key := c.key, value := c.value, taken := true }, taken_count := acc.taken_count + 1 } : HashTable K V) c'.key := by
        intro c' hmem htk hkey
        rw [hasKey_iff_exists] at hkey
        obtain ⟨v', hv'⟩ := hkey
        rw [hcont' _ _] at hv'
        rcases hv' with ⟨hk, _⟩ | hcont
        · exact (hpair.1 c' hmem hc htk) hk.symm
        · exact habs c' (List.mem_cons_of_mem _ hmem) htk (hasKey_iff_exists.mpr ⟨v', hcont⟩)
      obtain ⟨hI, hL, hC, hX⟩ := ih _ hInv' hlen' hbound' habs'' hpair.2
      refine ⟨by rw [hfold]; exact hI, by rw [hfold]; exact hL, ?_, ?_⟩
      · rw [hfold, hC, hcnt]
        simp only []
        omega
      · intro x y
        rw [hfold, hX x y, hcont' x y]
        constructor
        · rintro ((⟨hx, hy⟩ | hacc) | ⟨c', hmem, h1, h2, h3⟩)
          · exact Or.inr ⟨c, List.mem_cons_self c rest, hc, hx.symm, hy.symm⟩
          · exact Or.inl hacc
          · exact Or.inr ⟨c', List.mem_cons_of_mem _ hmem, h1, h2, h3⟩
        · rintro (hacc | ⟨c', hmem, h1, h2, h3⟩)
          · exact Or.inl (Or.inr hacc)
          · rcases List.mem_cons.mp hmem with hce | hmem'
            · subst hce
              exact Or.inl (Or.inl ⟨h2.symm, h3.symm⟩)
            · exact Or.inr ⟨c', hmem', h1, h2, h3⟩
    · have hcnt : (c :: rest).countP (fun d => d.taken) = rest.countP (fun d => d.taken) := by
        simp [List.countP_cons, hc]
      have hfold : (c :: rest).foldl
          (fun a cell => if cell.taken = true then insertF g a cell.key cell.value else a) acc =
          rest.foldl
            (fun a cell => if cell.taken = true then insertF g a cell.key cell.value else a)
            acc := by
        simp only [List.foldl_cons]
        rw [if_neg hc]
      have hbound' : acc.taken_count + rest.countP (fun d => d.taken) < C := by
        rw [hcnt] at hbound
        exact hbound
      obtain ⟨hI, hL, hC, hX⟩ := ih acc hInv hlen hbound'
        (fun c' hm => habs c' (List.mem_cons_of_mem _ hm)) hpair.2
      refine ⟨by rw [hfold]; exact hI, by rw [hfold]; exact hL, ?_, ?_⟩
      · rw [hfold, hC, hcnt]
      · intro x y
        rw [hfold, hX x y]
        constructor
        · rintro (hacc | ⟨c', hmem, h1, h2, h3⟩)
          · exact Or.inl hacc
          · exact Or.inr ⟨c', List.mem_cons_of_mem _ hmem, h1, h2, h3⟩
        · rintro (hacc | ⟨c', hmem, h1, h2, h3⟩)
          · exact Or.inl hacc
          · rcases List.mem_cons.mp hmem with hce | hmem'
            · subst hce
              exact absurd h1 hc
            · exact Or.inr ⟨c', hmem', h1, h2, h3⟩

theorem extendF_succ (gas : Nat) (t : HashTable K V) :
    extendF (gas + 1) t =
      t.cells.foldl
        (fun acc cell => if cell.taken = true then insertF gas acc cell.key cell.value else acc)
        (newTable (t.cells.length * 2 + 1)) := rfl

/-- Growth: capacity becomes `2 * old + 1`, the invariant is re-established,
the new `taken_count` is at most the old capacity, and the content is
unchanged. -/
theorem extend_spec {t : HashTable K V} (hInv : Inv t) :
    Inv t.extend ∧ t.extend.cells.length = t.cells.length * 2 + 1 ∧
      t.extend.taken_count = t.cells.countP (fun c => c.taken) ∧
      ∀ x y, contains t.extend x y ↔ contains t x y := by
  have hpair : t.cells.Pairwise (fun a b => a.taken = true → b.taken = true → a.key ≠ b.key) := by
    rw [List.pairwise_iff_getElem]
    intro a b ha hb hab hta htb hk
    have := hInv.distinct a b ha hb
      (by rw [cellAt_of_lt ha]; exact hta) (by rw [cellAt_of_lt hb]; exact htb)
      (by rw [cellAt_of_lt ha, cellAt_of_lt hb]; exact hk)
    omega
  have hCpos : 0 < t.cells.length * 2 + 1 := by omega
  have hcnt : t.cells.countP (fun c => c.taken) ≤ t.cells.length := List.countP_le_length _
  have h := foldl_reinsert (g := 0) (C := t.cells.length * 2 + 1) t.cells
    (newTable (t.cells.length * 2 + 1)) (inv_newTable hCpos)
    (by simp [newTable]) (by simp [newTable]; omega)
    (fun c _ _ hk => not_hasKey_newTable hk) hpair
  rw [← extendF_succ] at h
  obtain ⟨hI, hL, hC, hX⟩ := h
  have hext : t.extend = extendF 1 t := rfl
  refine ⟨by rw [hext]; exact hI, by rw [hext]; exact hL, ?_, ?_⟩
  · rw [hext, hC]
    simp [newTable]
  · intro x y
    rw [hext, hX x y, contains_iff_mem (t := t)]
    constructor
    · rintro (hnew | h)
      · exact absurd (hasKey_iff_exists.mpr ⟨y, hnew⟩) not_hasKey_newTable
      · exact h
    · intro h
      exact Or.inr h

end HashTableRs

namespace HashTableRs

variable {K V : Type} [DecidableEq K] [Hashable K] [Inhabited K] [Inhabited V]

open Hashable (hash)

/-- Operation `insert` keeps the invariant and rebinds exactly the inserted key. -/
theorem insert_spec {t : HashTable K V} (hInv : Inv t) (key : K) (v : V) :
    Inv (t.insert key v) ∧
      ∀ x y, contains (t.insert key v) x y ↔
        ((x = key ∧ y = v) ∨ (x ≠ key ∧ contains t x y)) := by
  cases hg : t.get_index key with
  | some i =>
    obtain ⟨hi, hti, hki⟩ := get_index_sound hg
    have he : t.insert key v = { t with cells := t.cells.set i { cellAt t.cells i with value := v } } :=
      insertF_found v hg
    rw [he]
    exact ⟨inv_setValue hInv hi v, contains_setValue hInv hg v⟩
  | none =>
    have hnk : ¬ hasKey t key := (get_index_none_iff hInv).mp hg
    by_cases hcap : t.cells.length ≤ t.taken_count
    · obtain ⟨hIe, hLe, hCe, hXe⟩ := extend_spec hInv
      have hnk' : ¬ hasKey t.extend key := by
        rw [hasKey_iff_exists]
        rintro ⟨v', hv'⟩
        rw [hXe key v'] at hv'
        exact hnk (hasKey_iff_exists.mpr ⟨v', hv'⟩)
      have hcap' : t.extend.taken_count < t.extend.cells.length := by
        have hcle : t.cells.countP (fun c => c.taken) ≤ t.cells.length :=
          List.countP_le_length _
        rw [hLe, hCe]
        omega
      have habs' : ∀ i, i < t.extend.cells.length → (cellAt t.extend.cells i).taken = true →
          (cellAt t.extend.cells i).key ≠ key := fun i h1 h2 h3 => hnk' ⟨i, h1, h2, h3⟩
      obtain ⟨i, hfound, hilt, hfree, hInv'⟩ := inv_fresh hIe v hcap' habs'
      have he : t.insert key v = ({ cells := t.extend.cells.set i { key := key, value := v, taken := true }, taken_count := t.extend.taken_count + 1 } : HashTable K V) := by
        show insertF 1 t key v = _
        rw [insertF_fresh_grow v hg hcap]
        rw [show extendF 1 t = t.extend from rfl, hfound]
      rw [he]
      refine ⟨hInv', ?_⟩
      intro x y
      rw [contains_fresh key v hilt hfree x y, hXe x y]
      constructor
      · rintro (h | h)
        · exact Or.inl h
        · by_cases hx : x = key
          · subst hx
            exact absurd (hasKey_iff_exists.mpr ⟨y, h⟩) hnk
          · exact Or.inr ⟨hx, h⟩
      · rintro (h | ⟨_, h⟩)
        · exact Or.inl h
        · exact Or.inr h
    · push_neg at hcap
      have habs' : ∀ i, i < t.cells.length → (cellAt t.cells i).taken = true →
          (cellAt t.cells i).key ≠ key := fun i h1 h2 h3 => hnk ⟨i, h1, h2, h3⟩
      obtain ⟨i, hfound, hilt, hfree, hInv'⟩ := inv_fresh hInv v hcap habs'
      have he : t.insert key v = ({ cells := t.cells.set i { key := key, value := v, taken := true }, taken_count := t.taken_count + 1 } : HashTable K V) := by
        show insertF 1 t key v = _
        rw [insertF_fresh_nogrow v hg hcap, hfound]
      rw [he]
      refine ⟨hInv', ?_⟩
      intro x y
      rw [contains_fresh key v hilt hfree x y]
      constructor
      · rintro (h | h)
        · exact Or.inl h
        · by_cases hx : x = key
          · subst hx
            exact absurd (hasKey_iff_exists.mpr ⟨y, h⟩) hnk
          · exact Or.inr ⟨hx, h⟩
      · rintro (h | ⟨_, h⟩)
        · exact Or.inl h
        · exact Or.inr h

/-- The unchanged / changed shapes of a write through a `get_mut` handle. -/
theorem writeThrough_eq_of_none {t : HashTable K V} {key : K} (w : V)
    (hg : t.get_index key = none) : t.writeThrough key w = t := by
  unfold HashTable.writeThrough
  rw [hg]

theorem writeThrough_eq_of_found {t : HashTable K V} {key : K} {i : Nat} (w : V)
    (hg : t.get_index key = some i) :
    t.writeThrough key w = { t with cells := t.cells.set i { cellAt t.cells i with value := w } } := by
  unfold HashTable.writeThrough
  rw [hg]

theorem writeThrough_inv {t : HashTable K V} (hInv : Inv t) (key : K) (w : V) :
    Inv (t.writeThrough key w) := by
  cases hg : t.get_index key with
  | none =>
    rw [writeThrough_eq_of_none w hg]
    exact hInv
  | some i =>
    obtain ⟨hi, _, _⟩ := get_index_sound hg
    rw [writeThrough_eq_of_found w hg]
    exact inv_setValue hInv hi w

/-- Every reachable state satisfies the invariant. -/
theorem reachable_inv {t : HashTable K V} (h : Reachable t) : Inv t := by
  induction h with
  | new => exact inv_newTable (by omega)
  | insert key v _ ih => exact (insert_spec ih key v).1
  | write key w _ ih => exact writeThrough_inv ih key w

theorem insert_hasKey {t : HashTable K V} (hInv : Inv t) (key : K) (v : V) (x : K) :
    hasKey (t.insert key v) x ↔ (x = key ∨ hasKey t x) := by
  rw [hasKey_iff_exists, hasKey_iff_exists]
  constructor
  · rintro ⟨y, hy⟩
    rw [(insert_spec hInv key v).2 x y] at hy
    rcases hy with ⟨hx, _⟩ | ⟨_, hc⟩
    · exact Or.inl hx
    · exact Or.inr ⟨y, hc⟩
  · rintro (hx | ⟨y, hy⟩)
    · exact ⟨v, ((insert_spec hInv key v).2 x v).mpr (Or.inl ⟨hx, rfl⟩)⟩
    · by_cases hx : x = key
      · exact ⟨v, ((insert_spec hInv key v).2 x v).mpr (Or.inl ⟨hx, rfl⟩)⟩
      · exact ⟨y, ((insert_spec hInv key v).2 x y).mpr (Or.inr ⟨hx, hy⟩)⟩

theorem writeThrough_hasKey {t : HashTable K V} (hInv : Inv t) (key : K) (w : V) (x : K) :
    hasKey (t.writeThrough key w) x ↔ hasKey t x := by
  cases hg : t.get_index key with
  | none =>
    rw [writeThrough_eq_of_none w hg]
  | some i =>
    obtain ⟨hi, hti, hki⟩ := get_index_sound hg
    rw [writeThrough_eq_of_found w hg]
    rw [hasKey_iff_exists, hasKey_iff_exists]
    constructor
    · rintro ⟨y, hy⟩
      rw [contains_setValue hInv hg w x y] at hy
      rcases hy with ⟨hx, _⟩ | ⟨_, hc⟩
      · subst hx
        exact ⟨(cellAt t.cells i).value, i, hi, hti, hki, rfl⟩
      · exact ⟨y, hc⟩
    · rintro ⟨y, hy⟩
      by_cases hx : x = key
      · exact ⟨w, (contains_setValue hInv hg w x w).mpr (Or.inl ⟨hx, rfl⟩)⟩
      · exact ⟨y, (contains_setValue hInv hg w x y).mpr (Or.inr ⟨hx, hy⟩)⟩

end HashTableRs

namespace HashTableRs

variable {K V : Type} [DecidableEq K] [Hashable K] [Inhabited K] [Inhabited V]

open Hashable (hash)

theorem runInserts_cons (t : HashTable K V) (p : K × V) (l : List (K × V)) :
    runInserts t (p :: l) = runInserts (t.insert p.1 p.2) l := rfl

theorem reachable_runInserts {t : HashTable K V} (h : Reachable t) :
    ∀ l : List (K × V), Reachable (runInserts t l) := by
  intro l
  induction l generalizing t with
  | nil => exact h
  | cons p rest ih => exact ih (Reachable.insert p.1 p.2 h)

/-- A binding `k ↦ v` survives any further inserts that never rebind `k` to
a different value. -/
theorem runInserts_keeps :
    ∀ (l : List (K × V)) {t : HashTable K V}, Inv t → ∀ {k : K} {v : V}, contains t k v →
      (∀ p, p ∈ l → p.1 = k → p.2 = v) →
      Inv (runInserts t l) ∧ contains (runInserts t l) k v := by
  intro l
  induction l with
  | nil =>
    intro t hInv k v hc _
    exact ⟨hInv, hc⟩
  | cons p rest ih =>
    intro t hInv k v hc h
    rw [runInserts_cons]
    obtain ⟨hI, hX⟩ := insert_spec hInv p.1 p.2
    refine ih hI ?_ (fun q hq => h q (List.mem_cons_of_mem _ hq))
    rw [hX k v]
    by_cases hk : k = p.1
    · exact Or.inl ⟨hk, (h p (List.mem_cons_self p rest) hk.symm).symm⟩
    · exact Or.inr ⟨hk, hc⟩

/-- A key stays absent through any operations that never insert it. -/
theorem runOps_keeps :
    ∀ (l : List (Op K V)) {t : HashTable K V}, Inv t → ∀ {k : K}, ¬ hasKey t k →
      (∀ op, op ∈ l → Op.insKey op k = false) →
      Inv (runOps t l) ∧ ¬ hasKey (runOps t l) k := by
  intro l
  induction l with
  | nil =>
    intro t hInv k hk _
    exact ⟨hInv, hk⟩
  | cons op rest ih =>
    intro t hInv k hk h
    have hcons : runOps t (op :: rest) = runOps (applyOp t op) rest := rfl
    rw [hcons]
    cases op with
    | ins k' v' =>
      have hne : k' ≠ k := by
        have hh := h _ (List.mem_cons_self _ _)
        simpa [Op.insKey] using hh
      refine ih (insert_spec hInv k' v').1 ?_ (fun q hq => h q (List.mem_cons_of_mem _ hq))
      show ¬ hasKey (t.insert k' v') k
      rw [insert_hasKey hInv k' v' k]
      rintro (h1 | h1)
      · exact hne h1.symm
      · exact hk h1
    | wr k' w =>
      refine ih (writeThrough_inv hInv k' w) ?_ (fun q hq => h q (List.mem_cons_of_mem _ hq))
      show ¬ hasKey (t.writeThrough k' w) k
      rw [writeThrough_hasKey hInv k' w k]
      exact hk

/-- With room in the table, the untaken-cell scan succeeds within
`capacity` steps. -/
theorem findUntaken_of_room {t : HashTable K V} (hInv : Inv t)
    (hcap : t.taken_count < t.cells.length) (key : K) :
    (findUntaken t.cells (hash key % t.cells.length) t.cells.length).isSome = true := by
  have hcnt : t.cells.countP (fun c => c.taken) < t.cells.length := by
    rw [← hInv.count]
    exact hcap
  obtain ⟨u, hu, hufree⟩ := exists_untaken hcnt
  have hs : hash key % t.cells.length < t.cells.length := Nat.mod_lt _ hInv.pos
  obtain ⟨j, hj, hjeq⟩ := shift_to_index hs hu
  exact findUntaken_isSome t.cells.length _ hs ⟨j, hj, by rw [hjeq]; exact hufree⟩

/-- The source's shift-and-add hash step equals the spec's ×33 step. -/
theorem hashStringStep_eq (r b : Nat) : hashStringStep r b = djb2SpecStep r b := by
  unfold hashStringStep djb2SpecStep
  rw [Nat.shiftLeft_eq, Nat.mod_add_mod, Nat.add_assoc, Nat.mod_add_mod]
  congr 1
  have h32 : (2 : Nat) ^ 5 = 32 := rfl
  rw [h32]
  omega

theorem foldl_hashStep_eq :
    ∀ (bs : List Nat) (r : Nat), bs.foldl hashStringStep r = bs.foldl djb2SpecStep r := by
  intro bs
  induction bs with
  | nil => intro r; rfl
  | cons b rest ih =>
    intro r
    simp only [List.foldl_cons, hashStringStep_eq]
    exact ih _

/-- A fresh insert never grows when the table has room: the growth indicator
is off. -/
theorem growsOn_eq_false {t : HashTable K V} {k : K}
    (hcap : t.taken_count < t.cells.length) : growsOn t k = false := by
  unfold growsOn
  rw [decide_eq_false (by omega : ¬ t.cells.length ≤ t.taken_count)]
  simp

/-- An insert of an absent key into a table at capacity triggers growth. -/
theorem growsOn_eq_true {t : HashTable K V} {k : K} (hmiss : t.get_index k = none)
    (hcap : t.cells.length ≤ t.taken_count) : growsOn t k = true := by
  unfold growsOn
  rw [hmiss, decide_eq_true hcap]
  rfl

/-- Shape of a fresh insert when the table has room: capacity is unchanged
and `taken_count` goes up by one. -/
theorem insert_fresh_shape {t : HashTable K V} (hInv : Inv t) {k : K} (v : V)
    (habs : ¬ hasKey t k) (hcap : t.taken_count < t.cells.length) :
    (t.insert k v).cells.length = t.cells.length ∧
    (t.insert k v).taken_count = t.taken_count + 1 := by
  have hg : t.get_index k = none := (get_index_none_iff hInv).mpr habs
  have habs' : ∀ i, i < t.cells.length → (cellAt t.cells i).taken = true →
      (cellAt t.cells i).key ≠ k := fun i h1 h2 h3 => habs ⟨i, h1, h2, h3⟩
  obtain ⟨i, hfound, hilt, hfree, _⟩ := inv_fresh hInv v hcap habs'
  have he : t.insert k v = ({ cells := t.cells.set i { key := k, value := v, taken := true }, taken_count := t.taken_count + 1 } : HashTable K V) := by
    show insertF 1 t k v = _
    rw [insertF_fresh_nogrow v hg hcap, hfound]
  rw [he]
  exact ⟨by simp, rfl⟩

/-- Shape of a fresh insert into a full table: one growth to `2 * len + 1`,
and `taken_count` goes up by one. -/
theorem insert_full_shape {t : HashTable K V} (hInv : Inv t) {k : K} (v : V)
    (habs : ¬ hasKey t k) (hcap : t.cells.length ≤ t.taken_count) :
    (t.insert k v).cells.length = 2 * t.cells.length + 1 ∧
    (t.insert k v).taken_count = t.taken_count + 1 ∧
    growsOn t k = true := by
  have hg : t.get_index k = none := (get_index_none_iff hInv).mpr habs
  obtain ⟨hIe, hLe, hCe, hXe⟩ := extend_spec hInv
  have hnk' : ¬ hasKey t.extend k := by
    rw [hasKey_iff_exists]
    rintro ⟨v', hv'⟩
    rw [hXe k v'] at hv'
    exact habs (hasKey_iff_exists.mpr ⟨v', hv'⟩)
  have hcle : t.cells.countP (fun c => c.taken) ≤ t.cells.length :=
    List.countP_le_length _
  have hcap' : t.extend.taken_count < t.extend.cells.length := by
    rw [hLe, hCe]
    omega
  have habs' : ∀ i, i < t.extend.cells.length → (cellAt t.extend.cells i).taken = true →
      (cellAt t.extend.cells i).key ≠ k := fun i h1 h2 h3 => hnk' ⟨i, h1, h2, h3⟩
  obtain ⟨i, hfound, hilt, hfree, _⟩ := inv_fresh hIe v hcap' habs'
  have he : t.insert k v = ({ cells := t.extend.cells.set i { key := k, value := v, taken := true }, taken_count := t.extend.taken_count + 1 } : HashTable K V) := by
    show insertF 1 t k v = _
    rw [insertF_fresh_grow v hg hcap]
    rw [show extendF 1 t = t.extend from rfl, hfound]
  rw [he]
  refine ⟨?_, ?_, growsOn_eq_true hg hcap⟩
  · show (t.extend.cells.set i { key := k, value := v, taken := true }).length
      = 2 * t.cells.length + 1
    rw [List.length_set, hLe]
    omega
  · show t.extend.taken_count + 1 = t.taken_count + 1
    rw [hCe, ← hInv.count]

/-- The growth counter threads additively through the counting fold. -/
theorem growthCount_shift :
    ∀ (l : List (K × V)) (t : HashTable K V) (n : Nat),
      (l.foldl
        (fun acc p => (acc.1.insert p.1 p.2, acc.2 + if growsOn acc.1 p.1 then 1 else 0))
        (t, n)).2 = n + growthCount t l := by
  intro l
  induction l with
  | nil =>
    intro t n
    simp [growthCount]
  | cons p rest ih =>
    intro t n
    simp only [growthCount, List.foldl_cons]
    rw [ih, ih]
    omega

theorem growthCount_cons (t : HashTable K V) (p : K × V) (l : List (K × V)) :
    growthCount t (p :: l) =
      (if growsOn t p.1 then 1 else 0) + growthCount (t.insert p.1 p.2) l := by
  have h0 : growthCount t (p :: l) =
      (l.foldl
        (fun acc q => (acc.1.insert q.1 q.2, acc.2 + if growsOn acc.1 q.1 then 1 else 0))
        ((t.insert p.1 p.2), 0 + if growsOn t p.1 then 1 else 0)).2 := rfl
  rw [h0, growthCount_shift]
  omega

theorem growthCount_singleton (t : HashTable K V) (p : K × V) :
    growthCount t [p] = if growsOn t p.1 then 1 else 0 := by
  rw [growthCount_cons]
  have h0 : growthCount (t.insert p.1 p.2) ([] : List (K × V)) = 0 := rfl
  rw [h0]
  omega

theorem runInserts_append (t : HashTable K V) (l₁ l₂ : List (K × V)) :
    runInserts t (l₁ ++ l₂) = runInserts (runInserts t l₁) l₂ := by
  simp [runInserts, List.foldl_append]

theorem growthCount_append (t : HashTable K V) (l₁ l₂ : List (K × V)) :
    growthCount t (l₁ ++ l₂) = growthCount t l₁ + growthCount (runInserts t l₁) l₂ := by
  induction l₁ generalizing t with
  | nil =>
    have h1 : growthCount t (([] : List (K × V)) ++ l₂) = growthCount t l₂ := rfl
    have h2 : growthCount t ([] : List (K × V)) = 0 := rfl
    have h3 : runInserts t ([] : List (K × V)) = t := rfl
    rw [h1, h2, h3]
    omega
  | cons p rest ih =>
    have h1 : (p :: rest) ++ l₂ = p :: (rest ++ l₂) := rfl
    rw [h1, growthCount_cons, ih, growthCount_cons, runInserts_cons]
    omega

/-- Running inserts of pairwise-distinct absent keys with room for all of
them: no growth, capacity unchanged, one taken cell per insert, and exactly
those keys added. -/
theorem runInserts_distinct_fresh :
    ∀ (l : List (K × V)) {t : HashTable K V}, Inv t →
      (l.map Prod.fst).Nodup →
      (∀ p, p ∈ l → ¬ hasKey t p.1) →
      t.taken_count + l.length ≤ t.cells.length →
      Inv (runInserts t l) ∧
      growthCount t l = 0 ∧
      (runInserts t l).cells.length = t.cells.length ∧
      (runInserts t l).taken_count = t.taken_count + l.length ∧
      (∀ x, hasKey (runInserts t l) x ↔ (hasKey t x ∨ ∃ q, q ∈ l ∧ q.1 = x)) := by
  intro l
  induction l with
  | nil =>
    intro t hInv _ _ _
    have h3 : runInserts t ([] : List (K × V)) = t := rfl
    refine ⟨hInv, rfl, rfl, by rw [h3]; simp, ?_⟩
    intro x
    rw [h3]
    simp
  | cons p rest ih =>
    intro t hInv hnd habs hroom
    have hlenc : (p :: rest).length = rest.length + 1 := rfl
    have hcap : t.taken_count < t.cells.length := by
      rw [hlenc] at hroom
      omega
    have habs0 : ¬ hasKey t p.1 := habs p (List.mem_cons_self p rest)
    obtain ⟨hlen1, hcnt1⟩ := insert_fresh_shape hInv p.2 habs0 hcap
    have hInv1 : Inv (t.insert p.1 p.2) := (insert_spec hInv p.1 p.2).1
    have hkey1 := insert_hasKey hInv p.1 p.2
    rw [List.map_cons, List.nodup_cons] at hnd
    have habs1 : ∀ q, q ∈ rest → ¬ hasKey (t.insert p.1 p.2) q.1 := by
      intro q hq hk
      rw [hkey1 q.1] at hk
      rcases hk with h1 | h1
      · exact hnd.1 (h1 ▸ List.mem_map_of_mem Prod.fst hq)
      · exact habs q (List.mem_cons_of_mem _ hq) h1
    have hroom1 : (t.insert p.1 p.2).taken_count + rest.length
        ≤ (t.insert p.1 p.2).cells.length := by
      rw [hcnt1, hlen1]
      rw [hlenc] at hroom
      omega
    obtain ⟨hI, hG, hL, hC, hK⟩ := ih hInv1 hnd.2 habs1 hroom1
    have hrun : runInserts t (p :: rest) = runInserts (t.insert p.1 p.2) rest :=
      runInserts_cons t p rest
    refine ⟨?_, ?_, ?_, ?_, ?_⟩
    · rw [hrun]
      exact hI
    · rw [growthCount_cons, growsOn_eq_false hcap]
      simpa using hG
    · rw [hrun, hL, hlen1]
    · rw [hrun, hC, hcnt1, hlenc]
      omega
    · intro x
      rw [hrun, hK x, hkey1 x]
      constructor
      · rintro ((hx | hx) | ⟨q, hq, hq1⟩)
        · exact Or.inr ⟨p, List.mem_cons_self p rest, hx.symm⟩
        · exact Or.inl hx
        · exact Or.inr ⟨q, List.mem_cons_of_mem _ hq, hq1⟩
      · rintro (hx | ⟨q, hq, hq1⟩)
        · exact Or.inl (Or.inr hx)
        · rcases List.mem_cons.mp hq with hqe | hq'
          · subst hqe
            exact Or.inl (Or.inl hq1.symm)
          · exact Or.inr ⟨q, hq', hq1⟩

end HashTableRs

namespace HashTableRs

variable {K V : Type} [DecidableEq K] [Hashable K] [Inhabited K] [Inhabited V]

open Hashable (hash)

/-- C1: for every sequence of inserts starting from `new()`, after
`insert(k, v)` and before any subsequent insert of the same key `k` with a
different value, `get(&k)` returns `Some(v)`. -/
theorem C1_insert_then_get (l₁ l₂ : List (K × V)) (k : K) (v : V)
    (h : ∀ p, p ∈ l₂ → p.1 = k → p.2 = v) :
    (runInserts ((runInserts (HashTable.new : HashTable K V) l₁).insert k v) l₂).get k
      = some v := by
  have h0 : Reachable (runInserts (HashTable.new : HashTable K V) l₁) :=
    reachable_runInserts Reachable.new l₁
  have hInv := reachable_inv h0
  obtain ⟨hI, hX⟩ := insert_spec hInv k v
  have hc : contains ((runInserts (HashTable.new : HashTable K V) l₁).insert k v) k v :=
    (hX k v).mpr (Or.inl ⟨rfl, rfl⟩)
  obtain ⟨hIf, hcf⟩ := runInserts_keeps l₂ hI hc h
  exact (get_eq_some_iff hIf).mpr hcf

theorem C1_insert_then_get_witness :
    (∀ p, p ∈ [((3 : Nat), (30 : Nat)), (2, 20)] → p.1 = 2 → p.2 = 20) ∧
    (runInserts ((runInserts (HashTable.new : HashTable Nat Nat) [(1, 10)]).insert 2 20)
      [(3, 30), (2, 20)]).get 2 = some 20 :=
  ⟨by decide, C1_insert_then_get [(1, 10)] [(3, 30), (2, 20)] 2 20 (by decide)⟩

/-- C2 as stated is false at its own concrete input: inserting exactly
`capacity = 11` distinct keys into a fresh table triggers no growth event at
all (not one), and capacity stays 11 (it does not become 23) — the growth
check `taken_count >= capacity` runs before a fresh insert, and even the
11th insert still sees `taken_count = 10 < 11`. -/
theorem C2_counterexample :
    growthCount (HashTable.new : HashTable Nat Nat) (natPairs 11) = 0 ∧
    ¬ growthCount (HashTable.new : HashTable Nat Nat) (natPairs 11) = 1 ∧
    (runInserts (HashTable.new : HashTable Nat Nat) (natPairs 11)).cells.length = 11 ∧
    ¬ (runInserts (HashTable.new : HashTable Nat Nat) (natPairs 11)).cells.length
        = 2 * 11 + 1 ∧
    (runInserts (HashTable.new : HashTable Nat Nat) (natPairs 11)).taken_count = 11 :=
  ⟨by decide, by decide, by decide, by decide, by decide⟩

/-- C2 amended (the claim as stated is refuted by the counterexample):
inserting exactly `capacity` pairwise-distinct keys (11 keys, arbitrary
values) into a fresh table triggers no growth event — capacity stays 11 and
the table becomes full (`taken_count = 11`); exactly one growth event occurs
on the `capacity + 1`-th distinct insert, after which capacity has strictly
increased to `2 * 11 + 1 = 23`. -/
theorem C2_amended (l : List (K × V)) (p : K × V)
    (hd : ((l ++ [p]).map Prod.fst).Nodup) (hlen : l.length = 11) :
    growthCount (HashTable.new : HashTable K V) l = 0 ∧
    (runInserts (HashTable.new : HashTable K V) l).cells.length = 11 ∧
    (runInserts (HashTable.new : HashTable K V) l).taken_count = 11 ∧
    growthCount (HashTable.new : HashTable K V) (l ++ [p]) = 1 ∧
    (runInserts (HashTable.new : HashTable K V) (l ++ [p])).cells.length = 2 * 11 + 1 := by
  rw [List.map_append, List.nodup_append] at hd
  obtain ⟨hd1, _, hdisj⟩ := hd
  have hnp : ∀ q, q ∈ l → q.1 ≠ p.1 := by
    intro q hq hqe
    exact hdisj (List.mem_map_of_mem Prod.fst hq)
      (by rw [hqe]; exact List.mem_singleton.mpr rfl)
  have h0 : Inv (HashTable.new : HashTable K V) := inv_newTable (by omega)
  have hlen0 : (HashTable.new : HashTable K V).cells.length = 11 := rfl
  have hcnt0 : (HashTable.new : HashTable K V).taken_count = 0 := rfl
  obtain ⟨hI, hG, hL, hC, hK⟩ := runInserts_distinct_fresh l h0 hd1
    (fun q _ => not_hasKey_newTable) (by rw [hcnt0, hlen, hlen0])
  have hfull : (runInserts (HashTable.new : HashTable K V) l).cells.length
      ≤ (runInserts (HashTable.new : HashTable K V) l).taken_count := by
    rw [hL, hC, hlen0, hcnt0, hlen]
  have habsp : ¬ hasKey (runInserts (HashTable.new : HashTable K V) l) p.1 := by
    rw [hK p.1]
    rintro (hx | ⟨q, hq, hq1⟩)
    · exact not_hasKey_newTable hx
    · exact hnp q hq hq1
  obtain ⟨hlen2, _, hgrow⟩ := insert_full_shape hI p.2 habsp hfull
  refine ⟨hG, by rw [hL, hlen0], by rw [hC, hcnt0, hlen], ?_, ?_⟩
  · rw [growthCount_append, hG, growthCount_singleton, hgrow]
    simp
  · rw [runInserts_append]
    have hlast : runInserts (runInserts (HashTable.new : HashTable K V) l) [p]
        = (runInserts (HashTable.new : HashTable K V) l).insert p.1 p.2 := rfl
    rw [hlast, hlen2, hL, hlen0]

theorem C2_amended_witness :
    (((natPairs 11 ++ [((11 : Nat), (11 : Nat))]).map Prod.fst).Nodup ∧
      (natPairs 11).length = 11) ∧
    (growthCount (HashTable.new : HashTable Nat Nat) (natPairs 11) = 0 ∧
      (runInserts (HashTable.new : HashTable Nat Nat) (natPairs 11)).cells.length = 11 ∧
      (runInserts (HashTable.new : HashTable Nat Nat) (natPairs 11)).taken_count = 11 ∧
      growthCount (HashTable.new : HashTable Nat Nat) (natPairs 11 ++ [(11, 11)]) = 1 ∧
      (runInserts (HashTable.new : HashTable Nat Nat) (natPairs 11 ++ [(11, 11)])).cells.length
        = 2 * 11 + 1) :=
  ⟨⟨by decide, by decide⟩, C2_amended _ (11, 11) (by decide) (by decide)⟩

/-- C3: growth is a value-preserving rehash — immediately after `extend`,
`get` returns the same value for every key present before, and the capacity
is `2 * old + 1`; in particular the 12-keys-0..11 scenario produces exactly
one growth to capacity 23 with every value retrievable. -/
theorem C3_extend_preserves_get {t : HashTable K V} (h : Reachable t) (k : K) (v : V)
    (hget : t.get k = some v) :
    t.extend.cells.length = 2 * t.cells.length + 1 ∧
    t.extend.get k = some v ∧
    growthCount (HashTable.new : HashTable Nat Nat) (natPairs 12) = 1 ∧
    (runInserts (HashTable.new : HashTable Nat Nat) (natPairs 12)).cells.length = 23 ∧
    (∀ i, i < 12 → (runInserts (HashTable.new : HashTable Nat Nat) (natPairs 12)).get i
      = some i) := by
  have hInv := reachable_inv h
  obtain ⟨hIe, hLe, _, hXe⟩ := extend_spec hInv
  refine ⟨by omega, ?_, by decide, by decide, by decide⟩
  exact (get_eq_some_iff hIe).mpr ((hXe k v).mpr ((get_eq_some_iff hInv).mp hget))

theorem C3_extend_preserves_get_witness :
    ((HashTable.new : HashTable Nat Nat).insert 3 5).get 3 = some 5 ∧
    (((HashTable.new : HashTable Nat Nat).insert 3 5).extend.cells.length
        = 2 * ((HashTable.new : HashTable Nat Nat).insert 3 5).cells.length + 1 ∧
      ((HashTable.new : HashTable Nat Nat).insert 3 5).extend.get 3 = some 5 ∧
      growthCount (HashTable.new : HashTable Nat Nat) (natPairs 12) = 1 ∧
      (runInserts (HashTable.new : HashTable Nat Nat) (natPairs 12)).cells.length = 23 ∧
      (∀ i, i < 12 → (runInserts (HashTable.new : HashTable Nat Nat) (natPairs 12)).get i
        = some i)) :=
  ⟨by decide, C3_extend_preserves_get (Reachable.insert 3 5 Reachable.new) 3 5 (by decide)⟩

/-- C4: in every state reachable through `new`/`insert`/`get`/`get_mut`,
`get` of a key that was never inserted returns `None` — including states
where the probe must exhaust all `capacity` steps (full table). -/
theorem C4_get_never_inserted (l : List (Op K V)) (k : K)
    (h : ∀ op, op ∈ l → Op.insKey op k = false) :
    (runOps (HashTable.new : HashTable K V) l).get k = none := by
  have h0 : Inv (HashTable.new : HashTable K V) := inv_newTable (by omega)
  have hk : ¬ hasKey (HashTable.new : HashTable K V) k := not_hasKey_newTable
  obtain ⟨hI, hnk⟩ := runOps_keeps l h0 hk h
  exact (get_eq_none_iff hI).mpr hnk

theorem C4_get_never_inserted_witness :
    (∀ op, op ∈ (natPairs 11).map (fun p => Op.ins p.1 p.2) →
      Op.insKey op (11 : Nat) = false) ∧
    (runOps (HashTable.new : HashTable Nat Nat)
      ((natPairs 11).map (fun p => Op.ins p.1 p.2))).get 11 = none :=
  ⟨by decide, C4_get_never_inserted _ 11 (by decide)⟩

/-- C5 as stated is false: a full table (`taken_count = capacity`) is
reachable — insert the 11 distinct keys 0..10 into a fresh table, which
triggers no growth — and there the lookup of the absent key 11 exhausts all
`capacity` probe steps without hitting an untaken cell or a match, so the
defensive fallback does execute. -/
theorem C5_counterexample :
    Reachable (runInserts (HashTable.new : HashTable Nat Nat) (natPairs 11)) ∧
    (runInserts (HashTable.new : HashTable Nat Nat) (natPairs 11)).taken_count
      = (runInserts (HashTable.new : HashTable Nat Nat) (natPairs 11)).cells.length ∧
    probeStops (runInserts (HashTable.new : HashTable Nat Nat) (natPairs 11)).cells 11
      (HashTableRs.Hashable.hash (11 : Nat)
        % (runInserts (HashTable.new : HashTable Nat Nat) (natPairs 11)).cells.length)
      (runInserts (HashTable.new : HashTable Nat Nat) (natPairs 11)).cells.length = false :=
  ⟨reachable_runInserts Reachable.new (natPairs 11), by decide, by decide⟩

/-- C5 amended: in every reachable state that is not full
(`taken_count < capacity`), every lookup stops early — the probe loop breaks
at an untaken cell or a key match before exhausting its `capacity`
iterations.  (A reachable full table defeats the original claim; see the
counterexample.) -/
theorem C5_amended_probe_stops {t : HashTable K V} (h : Reachable t)
    (hcap : t.taken_count < t.cells.length) (key : K) :
    probeStops t.cells key (hash key % t.cells.length) t.cells.length = true := by
  have hInv := reachable_inv h
  have hcnt : t.cells.countP (fun c => c.taken) < t.cells.length := by
    rw [← hInv.count]
    exact hcap
  obtain ⟨u, hu, hufree⟩ := exists_untaken hcnt
  have hs : hash key % t.cells.length < t.cells.length := Nat.mod_lt _ hInv.pos
  obtain ⟨j, hj, hjeq⟩ := shift_to_index hs hu
  exact probeStops_of_exists t.cells.length _ hs ⟨j, hj, by rw [hjeq]; exact Or.inl hufree⟩

theorem C5_amended_probe_stops_witness :
    Reachable ((HashTable.new : HashTable Nat Nat).insert 1 5) ∧
    ((HashTable.new : HashTable Nat Nat).insert 1 5).taken_count
      < ((HashTable.new : HashTable Nat Nat).insert 1 5).cells.length ∧
    probeStops ((HashTable.new : HashTable Nat Nat).insert 1 5).cells 7
      (HashTableRs.Hashable.hash (7 : Nat)
        % ((HashTable.new : HashTable Nat Nat).insert 1 5).cells.length)
      ((HashTable.new : HashTable Nat Nat).insert 1 5).cells.length = true :=
  ⟨Reachable.insert 1 5 Reachable.new, by decide,
    C5_amended_probe_stops (Reachable.insert 1 5 Reachable.new) (by decide) 7⟩

/-- C6: inserting a key already present (by value equality) overwrites its
value in place: capacity and `taken_count` are unchanged (so no growth even
at capacity), the found cell keeps its key and taken flag with the new
value, and every other cell is untouched. -/
theorem C6_overwrite_in_place {t : HashTable K V} (h : Reachable t) {i : Nat} {k : K}
    (hi : i < t.cells.length) (ht : (cellAt t.cells i).taken = true)
    (hk : (cellAt t.cells i).key = k) (v : V) :
    (t.insert k v).cells.length = t.cells.length ∧
    (t.insert k v).taken_count = t.taken_count ∧
    cellAt (t.insert k v).cells i = { key := k, value := v, taken := true } ∧
    ∀ j, j ≠ i → cellAt (t.insert k v).cells j = cellAt t.cells j := by
  have hInv := reachable_inv h
  have hfound := get_index_complete hInv hi ht hk
  have he : t.insert k v = { t with cells := t.cells.set i { cellAt t.cells i with value := v } } :=
    insertF_found v hfound
  rw [he]
  refine ⟨by simp, rfl, ?_, ?_⟩
  · show cellAt (t.cells.set i { cellAt t.cells i with value := v }) i = _
    rw [cellAt_set_self hi]
    rw [show ({ cellAt t.cells i with value := v } : HashCell K V)
        = ⟨(cellAt t.cells i).key, v, (cellAt t.cells i).taken⟩ from rfl, hk, ht]
  · intro j hj
    show cellAt (t.cells.set i { cellAt t.cells i with value := v }) j = cellAt t.cells j
    exact cellAt_set_ne hj _

theorem C6_overwrite_in_place_witness :
    (5 < ((HashTable.new : HashTable Nat Nat).insert 5 1).cells.length ∧
      (cellAt ((HashTable.new : HashTable Nat Nat).insert 5 1).cells 5).taken = true ∧
      (cellAt ((HashTable.new : HashTable Nat Nat).insert 5 1).cells 5).key = 5) ∧
    ((((HashTable.new : HashTable Nat Nat).insert 5 1).insert 5 99).cells.length
        = ((HashTable.new : HashTable Nat Nat).insert 5 1).cells.length ∧
      (((HashTable.new : HashTable Nat Nat).insert 5 1).insert 5 99).taken_count
        = ((HashTable.new : HashTable Nat Nat).insert 5 1).taken_count ∧
      cellAt (((HashTable.new : HashTable Nat Nat).insert 5 1).insert 5 99).cells 5
        = { key := 5, value := 99, taken := true } ∧
      ∀ j, j ≠ 5 → cellAt (((HashTable.new : HashTable Nat Nat).insert 5 1).insert 5 99).cells j
        = cellAt ((HashTable.new : HashTable Nat Nat).insert 5 1).cells j) :=
  ⟨⟨by decide, by decide, by decide⟩,
    C6_overwrite_in_place (Reachable.insert 5 1 Reachable.new) (by decide) (by decide)
      (by decide) 99⟩

/-- C7: every reachable state satisfies the three data-model invariants:
`taken_count` is at most the capacity and counts exactly the taken cells; no
two taken cells hold equal keys; and every taken cell is reached from its
key's start index by linear probing through taken cells only, within
`capacity` steps. -/
theorem C7_reachable_invariants {t : HashTable K V} (h : Reachable t) :
    (t.taken_count ≤ t.cells.length ∧
      t.taken_count = t.cells.countP (fun c => c.taken)) ∧
    (∀ i j, i < t.cells.length → j < t.cells.length →
      (cellAt t.cells i).taken = true → (cellAt t.cells j).taken = true →
      (cellAt t.cells i).key = (cellAt t.cells j).key → i = j) ∧
    (∀ i, i < t.cells.length → (cellAt t.cells i).taken = true →
      ∃ j, j < t.cells.length ∧
        (hash (cellAt t.cells i).key % t.cells.length + j) % t.cells.length = i ∧
        ∀ j', j' < j →
          (cellAt t.cells
            ((hash (cellAt t.cells i).key % t.cells.length + j') % t.cells.length)).taken
              = true) := by
  have hInv := reachable_inv h
  exact ⟨⟨hInv.le_capacity, hInv.count⟩, hInv.distinct, hInv.path⟩

theorem C7_reachable_invariants_witness :
    Reachable ((HashTable.new : HashTable Nat Nat).insert 4 8) ∧
    ((((HashTable.new : HashTable Nat Nat).insert 4 8).taken_count
        ≤ ((HashTable.new : HashTable Nat Nat).insert 4 8).cells.length ∧
      ((HashTable.new : HashTable Nat Nat).insert 4 8).taken_count
        = ((HashTable.new : HashTable Nat Nat).insert 4 8).cells.countP (fun c => c.taken)) ∧
    (∀ i j, i < ((HashTable.new : HashTable Nat Nat).insert 4 8).cells.length →
      j < ((HashTable.new : HashTable Nat Nat).insert 4 8).cells.length →
      (cellAt ((HashTable.new : HashTable Nat Nat).insert 4 8).cells i).taken = true →
      (cellAt ((HashTable.new : HashTable Nat Nat).insert 4 8).cells j).taken = true →
      (cellAt ((HashTable.new : HashTable Nat Nat).insert 4 8).cells i).key
        = (cellAt ((HashTable.new : HashTable Nat Nat).insert 4 8).cells j).key → i = j) ∧
    (∀ i, i < ((HashTable.new : HashTable Nat Nat).insert 4 8).cells.length →
      (cellAt ((HashTable.new : HashTable Nat Nat).insert 4 8).cells i).taken = true →
      ∃ j, j < ((HashTable.new : HashTable Nat Nat).insert 4 8).cells.length ∧
        (HashTableRs.Hashable.hash (cellAt ((HashTable.new : HashTable Nat Nat).insert 4 8).cells i).key
            % ((HashTable.new : HashTable Nat Nat).insert 4 8).cells.length + j)
          % ((HashTable.new : HashTable Nat Nat).insert 4 8).cells.length = i ∧
        ∀ j', j' < j →
          (cellAt ((HashTable.new : HashTable Nat Nat).insert 4 8).cells
            ((HashTableRs.Hashable.hash (cellAt ((HashTable.new : HashTable Nat Nat).insert 4 8).cells i).key
                % ((HashTable.new : HashTable Nat Nat).insert 4 8).cells.length + j')
              % ((HashTable.new : HashTable Nat Nat).insert 4 8).cells.length)).taken
                = true)) :=
  ⟨Reachable.insert 4 8 Reachable.new,
    C7_reachable_invariants (Reachable.insert 4 8 Reachable.new)⟩

/-- C8: the unbounded placement loop of a non-overwriting insert always
terminates: after the conditional growth step, `taken_count < capacity`
holds, and the scan for an untaken cell succeeds within `capacity` probe
steps from `hash(key) % capacity`. -/
theorem C8_placement_loop_terminates {t : HashTable K V} (h : Reachable t) (key : K)
    (hmiss : t.get_index key = none) :
    (if t.cells.length ≤ t.taken_count then t.extend else t).taken_count
      < (if t.cells.length ≤ t.taken_count then t.extend else t).cells.length ∧
    (findUntaken (if t.cells.length ≤ t.taken_count then t.extend else t).cells
      (hash key % (if t.cells.length ≤ t.taken_count then t.extend else t).cells.length)
      (if t.cells.length ≤ t.taken_count then t.extend else t).cells.length).isSome
        = true := by
  have hInv := reachable_inv h
  by_cases hcap : t.cells.length ≤ t.taken_count
  · rw [if_pos hcap]
    obtain ⟨hIe, hLe, hCe, _⟩ := extend_spec hInv
    have hcap' : t.extend.taken_count < t.extend.cells.length := by
      have hcle : t.cells.countP (fun c => c.taken) ≤ t.cells.length :=
        List.countP_le_length _
      rw [hLe, hCe]
      omega
    exact ⟨hcap', findUntaken_of_room hIe hcap' key⟩
  · rw [if_neg hcap]
    push_neg at hcap
    exact ⟨hcap, findUntaken_of_room hInv hcap key⟩

theorem C8_placement_loop_terminates_witness :
    (runInserts (HashTable.new : HashTable Nat Nat) (natPairs 11)).get_index 11 = none ∧
    ((if (runInserts (HashTable.new : HashTable Nat Nat) (natPairs 11)).cells.length
          ≤ (runInserts (HashTable.new : HashTable Nat Nat) (natPairs 11)).taken_count
        then (runInserts (HashTable.new : HashTable Nat Nat) (natPairs 11)).extend
        else runInserts (HashTable.new : HashTable Nat Nat) (natPairs 11)).taken_count
      < (if (runInserts (HashTable.new : HashTable Nat Nat) (natPairs 11)).cells.length
          ≤ (runInserts (HashTable.new : HashTable Nat Nat) (natPairs 11)).taken_count
        then (runInserts (HashTable.new : HashTable Nat Nat) (natPairs 11)).extend
        else runInserts (HashTable.new : HashTable Nat Nat) (natPairs 11)).cells.length ∧
    (findUntaken (if (runInserts (HashTable.new : HashTable Nat Nat) (natPairs 11)).cells.length
          ≤ (runInserts (HashTable.new : HashTable Nat Nat) (natPairs 11)).taken_count
        then (runInserts (HashTable.new : HashTable Nat Nat) (natPairs 11)).extend
        else runInserts (HashTable.new : HashTable Nat Nat) (natPairs 11)).cells
      (HashTableRs.Hashable.hash (11 : Nat)
        % (if (runInserts (HashTable.new : HashTable Nat Nat) (natPairs 11)).cells.length
            ≤ (runInserts (HashTable.new : HashTable Nat Nat) (natPairs 11)).taken_count
          then (runInserts (HashTable.new : HashTable Nat Nat) (natPairs 11)).extend
          else runInserts (HashTable.new : HashTable Nat Nat) (natPairs 11)).cells.length)
      (if (runInserts (HashTable.new : HashTable Nat Nat) (natPairs 11)).cells.length
          ≤ (runInserts (HashTable.new : HashTable Nat Nat) (natPairs 11)).taken_count
        then (runInserts (HashTable.new : HashTable Nat Nat) (natPairs 11)).extend
        else runInserts (HashTable.new : HashTable Nat Nat) (natPairs 11)).cells.length).isSome
          = true) :=
  ⟨by decide,
    C8_placement_loop_terminates (reachable_runInserts Reachable.new (natPairs 11)) 11
      (by decide)⟩

/-- C9: the built-in hashes compute exactly the specified values — the
integer hash is the identity; the source's shift-and-add string hash equals
the spec's djb2 fold (seed 5381, ×33 + byte, wrapping at the 64-bit width)
on every byte sequence; hash("a") = 5381*33 + 97 = 177670 (mod 2^64); and
the hash is a pure deterministic function of the key. -/
theorem C9_hash_functions :
    (∀ n : Nat, HashTableRs.Hashable.hash n = n) ∧
    (∀ s : String, stringHash s = djb2Spec (strBytes s)) ∧
    stringHash keyA = (5381 * 33 + 97) % wrapW ∧
    stringHash keyA = 177670 ∧
    (∀ s₁ s₂ : String, s₁ = s₂ → stringHash s₁ = stringHash s₂) := by
  refine ⟨fun n => rfl, ?_, by decide, by decide, fun s₁ s₂ hs => by rw [hs]⟩
  intro s
  unfold stringHash djb2Spec
  exact foldl_hashStep_eq (strBytes s) 5381

theorem C9_hash_functions_witness :
    HashTableRs.Hashable.hash (7 : Nat) = 7 ∧ stringHash keyA = djb2Spec (strBytes keyA) ∧
    stringHash keyA = 177670 ∧ (keyA = keyA → stringHash keyA = stringHash keyA) :=
  ⟨C9_hash_functions.1 7, C9_hash_functions.2.1 keyA, C9_hash_functions.2.2.2.1,
    fun hs => C9_hash_functions.2.2.2.2 keyA keyA hs⟩

/-- C10: for a present key, `get_mut` finds exactly its cell (and reports
absence for keys held by no cell); writing `w` through the returned handle
changes only that cell's value — its key and taken flag, all other cells,
`taken_count` and capacity are untouched — and `get` then returns `w`. -/
theorem C10_get_mut_write {t : HashTable K V} (h : Reachable t) {i : Nat} {k : K}
    (hi : i < t.cells.length) (ht : (cellAt t.cells i).taken = true)
    (hk : (cellAt t.cells i).key = k) (w : V) :
    t.get_index k = some i ∧
    (∀ x, (∀ a, a < t.cells.length → (cellAt t.cells a).taken = true →
      (cellAt t.cells a).key ≠ x) → t.get_index x = none) ∧
    (t.writeThrough k w).cells.length = t.cells.length ∧
    (t.writeThrough k w).taken_count = t.taken_count ∧
    cellAt (t.writeThrough k w).cells i = { key := k, value := w, taken := true } ∧
    (∀ j, j ≠ i → cellAt (t.writeThrough k w).cells j = cellAt t.cells j) ∧
    (t.writeThrough k w).get k = some w := by
  have hInv := reachable_inv h
  have hfound := get_index_complete hInv hi ht hk
  have he := writeThrough_eq_of_found w hfound
  refine ⟨hfound, fun x hx => get_index_none hx, ?_, ?_, ?_, ?_, ?_⟩
  · rw [he]
    simp
  · rw [he]
  · rw [he]
    show cellAt (t.cells.set i { cellAt t.cells i with value := w }) i = _
    rw [cellAt_set_self hi]
    rw [show ({ cellAt t.cells i with value := w } : HashCell K V)
        = ⟨(cellAt t.cells i).key, w, (cellAt t.cells i).taken⟩ from rfl, hk, ht]
  · intro j hj
    rw [he]
    show cellAt (t.cells.set i { cellAt t.cells i with value := w }) j = cellAt t.cells j
    exact cellAt_set_ne hj _
  · have hI' := writeThrough_inv hInv k w
    apply (get_eq_some_iff hI').mpr
    rw [he]
    refine ⟨i, by simpa using hi, ?_, ?_, ?_⟩
    · show (cellAt (t.cells.set i { cellAt t.cells i with value := w }) i).taken = true
      rw [cellAt_set_self hi]
      exact ht
    · show (cellAt (t.cells.set i { cellAt t.cells i with value := w }) i).key = k
      rw [cellAt_set_self hi]
      exact hk
    · show (cellAt (t.cells.set i { cellAt t.cells i with value := w }) i).value = w
      rw [cellAt_set_self hi]

theorem C10_get_mut_write_witness :
    (9 < ((HashTable.new : HashTable String Nat).insert keyA 1).cells.length ∧
      (cellAt ((HashTable.new : HashTable String Nat).insert keyA 1).cells 9).taken = true ∧
      (cellAt ((HashTable.new : HashTable String Nat).insert keyA 1).cells 9).key = keyA) ∧
    (((HashTable.new : HashTable String Nat).insert keyA 1).get_index keyA = some 9 ∧
      (∀ x, (∀ a, a < ((HashTable.new : HashTable String Nat).insert keyA 1).cells.length →
        (cellAt ((HashTable.new : HashTable String Nat).insert keyA 1).cells a).taken = true →
        (cellAt ((HashTable.new : HashTable String Nat).insert keyA 1).cells a).key ≠ x) →
        ((HashTable.new : HashTable String Nat).insert keyA 1).get_index x = none) ∧
      ((((HashTable.new : HashTable String Nat).insert keyA 1).writeThrough keyA 99).cells.length
        = ((HashTable.new : HashTable String Nat).insert keyA 1).cells.length) ∧
      ((((HashTable.new : HashTable String Nat).insert keyA 1).writeThrough keyA 99).taken_count
        = ((HashTable.new : HashTable String Nat).insert keyA 1).taken_count) ∧
      cellAt (((HashTable.new : HashTable String Nat).insert keyA 1).writeThrough keyA 99).cells 9
        = { key := keyA, value := 99, taken := true } ∧
      (∀ j, j ≠ 9 →
        cellAt (((HashTable.new : HashTable String Nat).insert keyA 1).writeThrough keyA 99).cells j
          = cellAt ((HashTable.new : HashTable String Nat).insert keyA 1).cells j) ∧
      (((HashTable.new : HashTable String Nat).insert keyA 1).writeThrough keyA 99).get keyA
        = some 99) :=
  ⟨⟨by decide, by decide, by decide⟩,
    C10_get_mut_write (by exact Reachable.insert keyA 1 Reachable.new) (by decide) (by decide)
      (by decide) 99⟩

end HashTableRs
